import Mathlib

/-!
Verification of the graph utilities of `src/DAG_utils.py` (Graph_Tools).

The Python module works on a graph given as `dict<T, set<T>>`: a key maps to
the set of nodes it depends on (an edge `a -> b` means "a depends on b").
We embed such a dictionary as an association list `List (α × List α)`:
the list of (key, value-set) pairs in dictionary order, each value set as a
duplicate-free list.  The predicate `WF` records exactly what the Python
types `dict` and `set` guarantee: keys are distinct, every value set is
duplicate-free.

Every definition below is translated from the source file:
* `edge_dict_to_node_set`  (DAG_utils.py, lines 170-183)
* `invert_edge_dict`       (DAG_utils.py, lines 151-167)
* `is_graph_acylic_DFS` with its inner `is_graph_acylic_helper` (lines 4-47)
* `topological_sort`       (lines 64-148)
* `is_graph_acyclic_toplogical` (lines 50-61; the typo is the source's own)

The two unbounded iterations of the source (the recursive DFS helper and the
`while frontier` loop) are embedded with an explicit fuel parameter; the fuel
actually used (`dfsFuel`, `kahnFuel`) is proved sufficient below, so the
embedded functions compute exactly what the Python loops compute.
-/

namespace DAGUtils

variable {α : Type} [DecidableEq α]

/-- A Python `dict<T, set<T>>`: key/value-set pairs in dictionary order. -/
abbrev Graph (α : Type) := List (α × List α)

/-- Python `set.add` (also the element-collecting step of `set.update`):
insert an element unless it is already present. -/
def ins (x : α) (l : List α) : List α := if x ∈ l then l else x :: l

/-- Lookup with the `defaultdict(set)` semantics the source wraps every
graph in: a missing key reads as the empty set, never a `KeyError`. -/
def lookupD : Graph α → α → List α
  | [], _ => []
  | (k, v) :: rest, x => if k = x then v else lookupD rest x

/-- The keys of the dictionary. -/
def keys (G : Graph α) : List α := G.map Prod.fst

/-- What the Python types guarantee of `dict<T, set<T>>`: distinct keys and
duplicate-free value sets. -/
def WF (G : Graph α) : Prop := (keys G).Nodup ∧ ∀ p ∈ G, (p.2 : List α).Nodup

instance (G : Graph α) : Decidable (WF G) := by unfold WF; infer_instance

/-- Python `set.update`: add every element of the second list. -/
def insAll : List α → List α → List α
  | acc, [] => acc
  | acc, x :: xs => insAll (ins x acc) xs

/-- The loop of `edge_dict_to_node_set`:
`for from_node, to_node_set in d.items(): all_nodes.update({from_node} | to_node_set)`. -/
def nodeSetAux : List α → Graph α → List α
  | acc, [] => acc
  | acc, (k, v) :: rest => nodeSetAux (insAll acc (k :: v)) rest

/-- `edge_dict_to_node_set` (DAG_utils.py 170-183): every node appearing as a
key or inside a value set. -/
def edge_dict_to_node_set (G : Graph α) : List α := nodeSetAux [] G

/-- One step of `invert_edge_dict`: record the edge `f -> t` into the new
dictionary, i.e. `new_dict[t].add(f)` (insert the key with `{f}` if absent). -/
def addEdge : Graph α → α → α → Graph α
  | [], t, f => [(t, [f])]
  | (k, v) :: rest, t, f =>
    if k = t then (k, ins f v) :: rest else (k, v) :: addEdge rest t f

/-- The inner loop of `invert_edge_dict`:
`for to_node in to_nodes: ...` for a fixed `from_node`. -/
def addEdges : α → Graph α → List α → Graph α
  | _, d, [] => d
  | f, d, t :: ts => addEdges f (addEdge d t f) ts

/-- The outer loop of `invert_edge_dict`:
`for from_node, to_nodes in edge_dictionary.items(): ...`. -/
def invertAux : Graph α → Graph α → Graph α
  | d, [] => d
  | d, (k, v) :: rest => invertAux (addEdges k d v) rest

/-- `invert_edge_dict` (DAG_utils.py 151-167): the reverse-dependency map. -/
def invert_edge_dict (G : Graph α) : Graph α := invertAux [] G

/-- The recursive helper of `is_graph_acylic_DFS` (DAG_utils.py 27-43), with
explicit fuel for its recursion depth.  `seen` is `set_seen_so_far`, the set
of nodes on the active path; on the success path the Python code removes the
current node before returning, so the set passed to each recursive call is
exactly `current_node` consed onto the caller's path. -/
def is_graph_acylic_helper (G : Graph α) : Nat → List α → α → Bool
  | 0, _, _ => false
  | fuel + 1, seen, cur =>
    if cur ∈ seen then false
    else (lookupD G cur).all fun nxt => is_graph_acylic_helper G fuel (cur :: seen) nxt

/-- Fuel sufficient for the DFS helper: the recursion depth is bounded by the
number of distinct nodes plus one (proved in `helper_fuel_stable` below). -/
def dfsFuel (G : Graph α) : Nat := (edge_dict_to_node_set G).length + 1

/-- `is_graph_acylic_DFS` (DAG_utils.py 4-47):
`all(map(lambda start_node: is_graph_acylic_helper(set(), start_node), all_nodes_set))`. -/
def is_graph_acylic_DFS (G : Graph α) : Bool :=
  (edge_dict_to_node_set G).all fun s => is_graph_acylic_helper G (dfsFuel G) [] s

/-- The local state of `topological_sort`: `sorted_ordering`,
`node_to_is_added` (as the list of nodes whose flag is `True`),
`node_to_num_dependencies_met`, and `frontier`. -/
structure SortState (α : Type) where
  ordering : List α
  added : List α
  counters : α → Nat
  frontier : List α

/-- The inner loop of `topological_sort`:
`for dependant_node in inverted_edge_dict[current_node]:
   frontier.add(dependant_node); node_to_num_dependencies_met[dependant_node] += 1`. -/
def pushDeps : List α → List α → (α → Nat) → List α × (α → Nat)
  | [], fr, c => (fr, c)
  | d :: ds, fr, c => pushDeps ds (ins d fr) (fun n => if n = d then c n + 1 else c n)

/-- One iteration of the `while frontier` loop of `topological_sort`, after
`current_node = frontier.pop()` split the frontier into `cur` and `rest`:
skip the node if not all dependencies are met, otherwise append it to the
ordering, push its dependants, and mark it added. -/
def sortStep (G inv : Graph α) (cur : α) (rest : List α) (s : SortState α) : SortState α :=
  if s.counters cur < (lookupD G cur).length then
    { s with frontier := rest }
  else
    let p := pushDeps (lookupD inv cur) rest s.counters
    { ordering := s.ordering ++ [cur], added := ins cur s.added,
      counters := p.2, frontier := p.1 }

/-- The `while frontier:` loop of `topological_sort`, with explicit fuel;
`frontier.pop()` removes the head of the frontier. -/
def sortRun (G inv : Graph α) : Nat → SortState α → SortState α
  | 0, s => s
  | fuel + 1, s =>
    match s.frontier with
    | [] => s
    | cur :: rest => sortRun G inv fuel (sortStep G inv cur rest s)

/-- The state of `topological_sort` as the loop is entered: empty ordering,
no node added, all counters zero, and the frontier holding the terminal
nodes (`not edge_dictionary[node]`). -/
def initState (G : Graph α) : SortState α :=
  { ordering := [], added := [], counters := fun _ => 0,
    frontier := (edge_dict_to_node_set G).filter fun n => (lookupD G n).isEmpty }

/-- For every node of the node set not yet placed in `ord`: one plus the
number of its dependants.  Summand of the loop measure `phi`. -/
def phiSum (G : Graph α) (ord : List α) : Nat :=
  (((edge_dict_to_node_set G).filter fun n => decide (n ∉ ord)).map
    fun n => 1 + (lookupD (invert_edge_dict G) n).length).sum

/-- Decreasing measure of the loop: the frontier size plus, for every node
not yet placed, one plus the number of its dependants.  Every loop iteration
strictly decreases it (proved below), so it bounds the number of iterations. -/
def phi (G : Graph α) (s : SortState α) : Nat :=
  s.frontier.length + phiSum G s.ordering

/-- Fuel sufficient for the `while frontier` loop (proved in
`sortRun_frontier_empty` below). -/
def kahnFuel (G : Graph α) : Nat := phi G (initState G)

/-- `topological_sort` (DAG_utils.py 64-148): run the frontier loop, then
`return None` if some node was never added (`all(node_to_is_added.values())`
fails), else the sorted ordering. -/
def topological_sort (G : Graph α) : Option (List α) :=
  if (edge_dict_to_node_set G).all
      (fun n => decide (n ∈ (sortRun G (invert_edge_dict G) (kahnFuel G) (initState G)).added))
  then some (sortRun G (invert_edge_dict G) (kahnFuel G) (initState G)).ordering
  else none

/-- Index of the first occurrence of `x`: the position `list.index(x)` would
report for a member of the ordering. -/
def posOf (x : α) : List α → Nat
  | [] => 0
  | y :: ys => if y = x then 0 else posOf x ys + 1

/-- The chain graph `{0: {1}, 1: {2}}` of the repository's tests. -/
def gChain : Graph Nat := [(0, [1]), (1, [2])]

/-- The merge graph `{0: {1}, 1: {2, 3}, 2: {4}, 3: {4}}` of the tests. -/
def gMerge : Graph Nat := [(0, [1]), (1, [2, 3]), (2, [4]), (3, [4])]

/-- The self-loop `{0: {0}}` of the tests. -/
def gLoop : Graph Nat := [(0, [0])]

/-- The 2-cycle `{0: {1}, 1: {0}}` of the tests. -/
def gCyc2 : Graph Nat := [(0, [1]), (1, [0])]

/-! ### Heap model: aliasing semantics for the frame property

Python sets are mutable objects handled by reference.  To state that the
library leaves the caller's graph unchanged, set objects are placed in an
explicit heap, one cell per object.  The caller's dictionary becomes a list
of (key, set-reference) pairs; `defaultdict(set, d)` copies those pairs and
shares the referenced set objects, so a mutation of a shared cell would be
visible to the caller.  The definitions below re-run the two entry points
with every `set()` literal as an allocation and every `add`, `remove`,
`pop` and defaultdict default-insert as the heap update the source line
performs; the frame theorems then show no cell that existed before the call
is ever written. -/

abbrev Heap (α : Type) := List (List α)

abbrev GraphR (α : Type) := List (α × Nat)

def heapGet (h : Heap α) (r : Nat) : List α := h.getD r []

def heapSet (h : Heap α) (r : Nat) (v : List α) : Heap α := h.set r v

/-- Python `set.remove` (the DFS helper restores `set_seen_so_far` on its
success path). -/
def rem (x : α) : List α → List α
  | [] => []
  | y :: ys => if y = x then ys else y :: rem x ys

def dlookupR : GraphR α → α → Option Nat
  | [], _ => none
  | (k, r) :: rest, x => if k = x then some r else dlookupR rest x

/-- `defaultdict` subscript on a dictionary of set references: a missing key
allocates a fresh empty set and stores it under the key. -/
def dlookupH (D : GraphR α) (x : α) (h : Heap α) : List α × GraphR α × Heap α :=
  match dlookupR D x with
  | some r => (heapGet h r, D, h)
  | none => ([], D ++ [(x, h.length)], h ++ [[]])

/-- `all_nodes.update({from_node} | to_node_set)` over all items, the value
sets read through the heap; `acc` is the reference of `all_nodes`. -/
def nodeSetH : GraphR α → Nat → Heap α → Heap α
  | [], _, h => h
  | (k, r) :: rest, acc, h =>
    nodeSetH rest acc (heapSet h acc (insAll (heapGet h acc) (k :: heapGet h r)))

/-- `edge_dict_to_node_set` in the heap model: allocate `all_nodes = set()`,
fold over the items, return the reference of the result. -/
def edge_dict_to_node_setH (G : GraphR α) (h : Heap α) : Nat × Heap α :=
  (h.length, nodeSetH G h.length (h ++ [[]]))

/-- `new_dict[to_node].add(from_node)` resp. `new_dict[to_node] = {from_node}`. -/
def addEdgeH : GraphR α → α → α → Heap α → GraphR α × Heap α
  | [], t, f, h => ([(t, h.length)], h ++ [[f]])
  | (k, r) :: rest, t, f, h =>
    if k = t then ((k, r) :: rest, heapSet h r (ins f (heapGet h r)))
    else
      match addEdgeH rest t f h with
      | (d1, h1) => ((k, r) :: d1, h1)

def addEdgesH (f : α) : GraphR α → List α → Heap α → GraphR α × Heap α
  | d, [], h => (d, h)
  | d, t :: ts, h =>
    match addEdgeH d t f h with
    | (d1, h1) => addEdgesH f d1 ts h1

def invertAuxH : GraphR α → GraphR α → Heap α → GraphR α × Heap α
  | d, [], h => (d, h)
  | d, (k, r) :: rest, h =>
    match addEdgesH k d (heapGet h r) h with
    | (d1, h1) => invertAuxH d1 rest h1

/-- `invert_edge_dict` in the heap model: every set of `new_dict` is freshly
allocated, the input's sets are only read. -/
def invert_edge_dictH (G : GraphR α) (h : Heap α) : GraphR α × Heap α := invertAuxH [] G h

/-- Conjunction with early exit, threading dictionary and heap: the loop
`for next_node in ...: if not is_graph_acylic_helper(...): return False`. -/
def andThread (f : α → GraphR α → Heap α → Bool × GraphR α × Heap α) :
    List α → GraphR α → Heap α → Bool × GraphR α × Heap α
  | [], D, h => (true, D, h)
  | d :: ds, D, h =>
    match f d D h with
    | (false, D1, h1) => (false, D1, h1)
    | (true, D1, h1) => andThread f ds D1 h1

/-- The DFS helper in the heap model: `set_seen_so_far` is the set at `rs`;
`add` on entry, exploration of the (default) dependency set, `remove` before
a successful return. -/
def helperH : Nat → GraphR α → Nat → α → Heap α → Bool × GraphR α × Heap α
  | 0, D, _, _, h => (false, D, h)
  | fuel + 1, D, rs, cur, h =>
    if cur ∈ heapGet h rs then (false, D, h)
    else
      match dlookupH D cur (heapSet h rs (ins cur (heapGet h rs))) with
      | (deps, D1, h1) =>
        match andThread (fun nxt D2 h2 => helperH fuel D2 rs nxt h2) deps D1 h1 with
        | (false, D3, h3) => (false, D3, h3)
        | (true, D3, h3) => (true, D3, heapSet h3 rs (rem cur (heapGet h3 rs)))

/-- `all(map(lambda start_node: is_graph_acylic_helper(set(), start_node), ...))`:
a fresh `set()` per start node, stopping at the first `False`. -/
def dfsAllH (fuel : Nat) : List α → GraphR α → Heap α → Bool × GraphR α × Heap α
  | [], D, h => (true, D, h)
  | st :: ss, D, h =>
    match helperH fuel D h.length st (h ++ [[]]) with
    | (false, D1, h1) => (false, D1, h1)
    | (true, D1, h1) => dfsAllH fuel ss D1 h1

/-- `is_graph_acylic_DFS` in the heap model: wrap the dictionary (sharing
the sets), derive the node set, run the DFS from every start node. -/
def is_graph_acylic_DFS_H (fuel : Nat) (G : GraphR α) (h : Heap α) : Bool × Heap α :=
  match edge_dict_to_node_setH G h with
  | (allR, h1) =>
    match dfsAllH fuel (heapGet h1 allR) G h1 with
    | (b, _, h2) => (b, h2)

/-- `for node in all_nodes_set: if not edge_dictionary[node]:
terminal_node_set.add(node)`; `rt` refers to `terminal_node_set`. -/
def terminalH : List α → GraphR α → Nat → Heap α → GraphR α × Heap α
  | [], D, _, h => (D, h)
  | n :: ns, D, rt, h =>
    match dlookupH D n h with
    | (deps, D1, h1) =>
      if deps.isEmpty then terminalH ns D1 rt (heapSet h1 rt (ins n (heapGet h1 rt)))
      else terminalH ns D1 rt h1

/-- The loop state of `topological_sort` in the heap model: the two local
dictionaries hold set references, the frontier is the set at `rf` (aliasing
`terminal_node_set`, exactly as `frontier = terminal_node_set` does). -/
structure SortStateH (α : Type) where
  ordering : List α
  added : List α
  counters : α → Nat
  dct : GraphR α
  inv : GraphR α
  rf : Nat

def pushDepsH : List α → Nat → (α → Nat) → Heap α → (α → Nat) × Heap α
  | [], _, c, h => (c, h)
  | d :: ds, rf, c, h =>
    pushDepsH ds rf (fun n => if n = d then c n + 1 else c n)
      (heapSet h rf (ins d (heapGet h rf)))

def stepH (s : SortStateH α) (cur : α) (h : Heap α) : SortStateH α × Heap α :=
  match dlookupH s.dct cur h with
  | (deps, dct1, h1) =>
    if s.counters cur < deps.length then ({ s with dct := dct1 }, h1)
    else
      match dlookupH s.inv cur h1 with
      | (ideps, inv1, h2) =>
        match pushDepsH ideps s.rf s.counters h2 with
        | (c1, h3) =>
          ({ s with
              ordering := s.ordering ++ [cur]
              added := ins cur s.added
              counters := c1
              dct := dct1
              inv := inv1 }, h3)

def runH : Nat → SortStateH α → Heap α → SortStateH α × Heap α
  | 0, s, h => (s, h)
  | fuel + 1, s, h =>
    match heapGet h s.rf with
    | [] => (s, h)
    | cur :: rest =>
      match stepH s cur (heapSet h s.rf rest) with
      | (s1, h1) => runH fuel s1 h1

/-- `topological_sort` in the heap model, following the source line by line:
wrap (share sets), invert, derive the node set, seed the terminal set, run
the frontier loop, and check `node_to_is_added`. -/
def topological_sortH (fuel : Nat) (G : GraphR α) (h : Heap α) : Option (List α) × Heap α :=
  match invert_edge_dictH G h with
  | (invD, h1) =>
    match edge_dict_to_node_setH G h1 with
    | (allR, h2) =>
      match terminalH (heapGet h2 allR) G h2.length (h2 ++ [[]]) with
      | (dct1, h3) =>
        match runH fuel
            { ordering := [], added := [], counters := fun _ => 0,
              dct := dct1, inv := invD, rf := h2.length } h3 with
        | (sf, h4) =>
          (if (heapGet h2 allR).all fun n => decide (n ∈ sf.added) then some sf.ordering
           else none, h4)

/-- `is_graph_acyclic_toplogical` in the heap model. -/
def is_graph_acyclic_toplogicalH (fuel : Nat) (G : GraphR α) (h : Heap α) : Bool × Heap α :=
  match topological_sortH fuel G h with
  | (o, h1) => (o.isSome, h1)

/-- The caller's view of its graph object: each key with the contents of the
set it references. -/
def viewR (D : GraphR α) (h : Heap α) : Graph α := D.map fun p => (p.1, heapGet h p.2)

/-- All set references of a dictionary lie at or above `n0`: the
dictionaries the library builds internally reference only its own
allocations. -/
def GoodR (n0 : Nat) (D : GraphR α) : Prop := ∀ p ∈ D, n0 ≤ p.2

/-- `h2` extends `h`: no cell below `n0` changed, and the heap only grew. -/
def HeapExt (n0 : Nat) (h h2 : Heap α) : Prop :=
  h.length ≤ h2.length ∧ ∀ r, r < n0 → heapGet h2 r = heapGet h r

/-- A concrete caller state: the merge graph with its four value sets in
heap cells 0 to 3. -/
def hEx : Heap Nat := [[1], [2, 3], [4], [4]]

/-- The merge graph `{0: {1}, 1: {2, 3}, 2: {4}, 3: {4}}` as a dictionary of
set references into `hEx`. -/
def gExR : GraphR Nat := [(0, 0), (1, 1), (2, 2), (3, 3)]

/-- `is_graph_acyclic_toplogical` (DAG_utils.py 50-61):
`topological_sort(edge_dictionary) is not None`. -/
def is_graph_acyclic_toplogical (G : Graph α) : Bool := (topological_sort G).isSome

/-- The edge relation of the graph: `EdgeRel G a b` iff `a` depends on `b`,
i.e. `b ∈ edge_dictionary[a]`. -/
def EdgeRel (G : Graph α) (a b : α) : Prop := b ∈ lookupD G a

/-- A graph is acyclic when no node lies on a directed cycle (a self-loop
being a 1-cycle). -/
def Acyclic (G : Graph α) : Prop := ∀ a, ¬ Relation.TransGen (EdgeRel G) a a

/-- What one call of the DFS helper detects: some node reachable from `cur`
either already lies on the active path `seen`, or lies on a directed cycle. -/
def Bad (G : Graph α) (seen : List α) (cur : α) : Prop :=
  ∃ m, Relation.ReflTransGen (EdgeRel G) cur m ∧
    (m ∈ seen ∨ Relation.TransGen (EdgeRel G) m m)

/-- The loop invariant of the `while frontier` loop of `topological_sort`:
everything placed so far is a distinct node of the node set, placed after all
of its dependencies; the counters hold exactly the number of already-placed
dependencies; the frontier is a set of unplaced nodes; `node_to_is_added`
marks exactly the placed nodes; and every unplaced node whose dependencies
are all placed is waiting in the frontier. -/
structure KInv (G : Graph α) (s : SortState α) : Prop where
  ordNodup : s.ordering.Nodup
  ordSub : ∀ x ∈ s.ordering, x ∈ edge_dict_to_node_set G
  addedIff : ∀ x, x ∈ s.added ↔ x ∈ s.ordering
  frSub : ∀ x ∈ s.frontier, x ∈ edge_dict_to_node_set G
  frNodup : s.frontier.Nodup
  frDisj : ∀ x ∈ s.frontier, x ∉ s.ordering
  ctrEq : ∀ x, s.counters x =
    ((lookupD G x).filter fun d => decide (d ∈ s.ordering)).length
  depsBefore : ∀ i (hi : i < s.ordering.length),
    ∀ d ∈ lookupD G (s.ordering.get ⟨i, hi⟩), d ∈ s.ordering.take i
  ready : ∀ x ∈ edge_dict_to_node_set G, x ∉ s.ordering →
    (∀ d ∈ lookupD G x, d ∈ s.ordering) → x ∈ s.frontier

/-! ### Basic lemmas about set insertion -/

theorem mem_ins {x y : α} {l : List α} : y ∈ ins x l ↔ y = x ∨ y ∈ l := by
  unfold ins
  split
  · constructor
    · exact fun h => Or.inr h
    · rintro (rfl | h)
      · assumption
      · exact h
  · exact List.mem_cons

theorem ins_nodup {x : α} {l : List α} (h : l.Nodup) : (ins x l).Nodup := by
  unfold ins
  split
  · exact h
  · exact List.nodup_cons.mpr ⟨by assumption, h⟩

theorem ins_ins (x : α) (l : List α) : ins x (ins x l) = ins x l := by
  have hx : x ∈ ins x l := mem_ins.mpr (Or.inl rfl)
  rw [ins, if_pos hx]

theorem mem_insAll {y : α} : ∀ {l acc : List α}, y ∈ insAll acc l ↔ y ∈ acc ∨ y ∈ l := by
  intro l
  induction l with
  | nil => intro acc; simp [insAll]
  | cons x xs ih =>
    intro acc
    rw [insAll, ih, mem_ins]
    constructor
    · rintro ((rfl | h) | h)
      · exact Or.inr (List.mem_cons_self _ _)
      · exact Or.inl h
      · exact Or.inr (List.mem_cons_of_mem _ h)
    · rintro (h | h)
      · exact Or.inl (Or.inr h)
      · rcases List.mem_cons.mp h with rfl | h
        · exact Or.inl (Or.inl rfl)
        · exact Or.inr h

theorem insAll_nodup : ∀ {l acc : List α}, acc.Nodup → (insAll acc l).Nodup := by
  intro l
  induction l with
  | nil => intro acc h; exact h
  | cons x xs ih => intro acc h; exact ih (ins_nodup h)

/-! ### Lemmas about `edge_dict_to_node_set` -/

theorem mem_nodeSetAux {y : α} :
    ∀ {G : Graph α} {acc : List α},
      y ∈ nodeSetAux acc G ↔ y ∈ acc ∨ ∃ p ∈ G, y = p.1 ∨ y ∈ p.2 := by
  intro G
  induction G with
  | nil => intro acc; simp [nodeSetAux]
  | cons p rest ih =>
    intro acc
    obtain ⟨k, v⟩ := p
    rw [nodeSetAux, ih, mem_insAll]
    constructor
    · rintro ((h | h) | ⟨q, hq, hyq⟩)
      · exact Or.inl h
      · refine Or.inr ⟨(k, v), List.mem_cons_self _ _, ?_⟩
        simpa using h
      · exact Or.inr ⟨q, List.mem_cons_of_mem _ hq, hyq⟩
    · rintro (h | ⟨q, hq, hyq⟩)
      · exact Or.inl (Or.inl h)
      · rcases List.mem_cons.mp hq with rfl | hq2
        · refine Or.inl (Or.inr ?_)
          simpa using hyq
        · exact Or.inr ⟨q, hq2, hyq⟩

theorem nodeSetAux_nodup : ∀ {G : Graph α} {acc : List α}, acc.Nodup → (nodeSetAux acc G).Nodup := by
  intro G
  induction G with
  | nil => intro acc h; exact h
  | cons p rest ih => intro acc h; exact ih (insAll_nodup h)

theorem mem_edge_dict_to_node_set {y : α} {G : Graph α} :
    y ∈ edge_dict_to_node_set G ↔ ∃ p ∈ G, y = p.1 ∨ y ∈ p.2 := by
  rw [edge_dict_to_node_set, mem_nodeSetAux]
  simp

theorem edge_dict_to_node_set_nodup (G : Graph α) : (edge_dict_to_node_set G).Nodup :=
  nodeSetAux_nodup List.nodup_nil

theorem key_mem_node_set {G : Graph α} {k : α} {v : List α} (h : (k, v) ∈ G) :
    k ∈ edge_dict_to_node_set G :=
  mem_edge_dict_to_node_set.mpr ⟨(k, v), h, Or.inl rfl⟩

theorem value_mem_node_set {G : Graph α} {k x : α} {v : List α} (h : (k, v) ∈ G) (hx : x ∈ v) :
    x ∈ edge_dict_to_node_set G :=
  mem_edge_dict_to_node_set.mpr ⟨(k, v), h, Or.inr hx⟩

/-! ### Lemmas about `lookupD` -/

theorem lookupD_mem {G : Graph α} {x : α} (h : lookupD G x ≠ []) : (x, lookupD G x) ∈ G := by
  induction G with
  | nil => exact absurd rfl h
  | cons p rest ih =>
    obtain ⟨k, v⟩ := p
    by_cases hk : k = x
    · subst hk
      rw [lookupD, if_pos rfl] at h ⊢
      exact List.mem_cons_self _ _
    · rw [lookupD, if_neg hk] at h ⊢
      exact List.mem_cons_of_mem _ (ih h)

theorem mem_lookupD_key {G : Graph α} {x d : α} (h : d ∈ lookupD G x) :
    x ∈ edge_dict_to_node_set G := by
  have hne : lookupD G x ≠ [] := by intro hnil; rw [hnil] at h; exact absurd h (List.not_mem_nil d)
  exact key_mem_node_set (lookupD_mem hne)

theorem mem_lookupD_node_set {G : Graph α} {x d : α} (h : d ∈ lookupD G x) :
    d ∈ edge_dict_to_node_set G := by
  have hne : lookupD G x ≠ [] := by intro hnil; rw [hnil] at h; exact absurd h (List.not_mem_nil d)
  exact value_mem_node_set (lookupD_mem hne) h

theorem lookupD_eq_nil_of_not_key {G : Graph α} {x : α} (h : x ∉ keys G) : lookupD G x = [] := by
  induction G with
  | nil => rfl
  | cons p rest ih =>
    obtain ⟨k, v⟩ := p
    have hk : k ≠ x := fun heq => h (by simp [keys, heq])
    have hrest : x ∉ keys rest := fun hx => h (by simp [keys] at hx ⊢; exact Or.inr hx)
    rw [lookupD, if_neg hk]
    exact ih hrest

theorem lookupD_of_mem {G : Graph α} {k : α} {v : List α}
    (hk : (keys G).Nodup) (h : (k, v) ∈ G) : lookupD G k = v := by
  induction G with
  | nil => exact absurd h (List.not_mem_nil _)
  | cons p rest ih =>
    obtain ⟨k0, v0⟩ := p
    rw [keys, List.map_cons, List.nodup_cons] at hk
    rcases List.mem_cons.mp h with heq | hmem
    · cases heq
      rw [lookupD, if_pos rfl]
    · rw [lookupD]
      have hkne : k0 ≠ k := by
        intro heq0
        subst heq0
        exact hk.1 (List.mem_map.mpr ⟨(k0, v), hmem, rfl⟩)
      rw [if_neg hkne]
      exact ih hk.2 hmem

theorem mem_lookupD_iff {G : Graph α} {x y : α} (hk : (keys G).Nodup) :
    x ∈ lookupD G y ↔ ∃ v, (y, v) ∈ G ∧ x ∈ v := by
  constructor
  · intro h
    have hne : lookupD G y ≠ [] := by intro hnil; rw [hnil] at h; exact absurd h (List.not_mem_nil x)
    exact ⟨lookupD G y, lookupD_mem hne, h⟩
  · rintro ⟨v, hv, hx⟩
    rw [lookupD_of_mem hk hv]
    exact hx

theorem lookupD_nodup {G : Graph α} (hWF : WF G) (x : α) : (lookupD G x).Nodup := by
  by_cases h : lookupD G x = []
  · rw [h]; exact List.nodup_nil
  · exact hWF.2 _ (lookupD_mem h)

/-! ### Lemmas about `invert_edge_dict` -/

theorem lookupD_addEdge (d : Graph α) (t f x : α) :
    lookupD (addEdge d t f) x = if x = t then ins f (lookupD d x) else lookupD d x := by
  induction d with
  | nil =>
    simp only [addEdge, lookupD]
    by_cases hx : t = x
    · rw [if_pos hx, if_pos hx.symm]
      rfl
    · rw [if_neg hx, if_neg (fun h => hx h.symm)]
  | cons p rest ih =>
    obtain ⟨k, v⟩ := p
    by_cases hkt : k = t
    · subst hkt
      rw [addEdge, if_pos rfl, lookupD]
      by_cases hkx : k = x
      · subst hkx
        rw [if_pos rfl, if_pos rfl, lookupD, if_pos rfl]
      · rw [if_neg hkx, lookupD, if_neg hkx, if_neg (fun h : x = k => hkx h.symm)]
    · rw [addEdge, if_neg hkt, lookupD]
      by_cases hkx : k = x
      · subst hkx
        rw [if_pos rfl, lookupD, if_pos rfl, if_neg (fun h : k = t => hkt h)]
      · rw [if_neg hkx, ih, lookupD, if_neg hkx]

theorem lookupD_addEdges (f : α) (ts : List α) :
    ∀ (d : Graph α) (x : α),
      lookupD (addEdges f d ts) x = if x ∈ ts then ins f (lookupD d x) else lookupD d x := by
  induction ts with
  | nil => intro d x; simp [addEdges]
  | cons t ts ih =>
    intro d x
    rw [addEdges, ih, lookupD_addEdge]
    by_cases hxt : x = t
    · subst hxt
      by_cases hxts : x ∈ ts
      · rw [if_pos hxts, if_pos rfl, if_pos (List.mem_cons_self _ _), ins_ins]
      · rw [if_neg hxts, if_pos rfl, if_pos (List.mem_cons_self _ _)]
    · by_cases hxts : x ∈ ts
      · rw [if_pos hxts, if_neg hxt, if_pos (List.mem_cons_of_mem _ hxts)]
      · rw [if_neg hxts, if_neg hxt,
          if_neg (fun h => (List.mem_cons.mp h).elim hxt hxts)]

theorem mem_lookupD_invertAux {y x : α} :
    ∀ {entries d : Graph α},
      y ∈ lookupD (invertAux d entries) x ↔
        y ∈ lookupD d x ∨ ∃ p ∈ entries, p.1 = y ∧ x ∈ p.2 := by
  intro entries
  induction entries with
  | nil => intro d; simp [invertAux]
  | cons p rest ih =>
    intro d
    obtain ⟨k, v⟩ := p
    rw [invertAux, ih, lookupD_addEdges]
    by_cases hxv : x ∈ v
    · rw [if_pos hxv]
      constructor
      · rintro (h | ⟨q, hq, hy, hx2⟩)
        · rcases mem_ins.mp h with h1 | h2
          · exact Or.inr ⟨(k, v), List.mem_cons_self _ _, h1.symm, hxv⟩
          · exact Or.inl h2
        · exact Or.inr ⟨q, List.mem_cons_of_mem _ hq, hy, hx2⟩
      · rintro (h | ⟨q, hq, hy, hx2⟩)
        · exact Or.inl (mem_ins.mpr (Or.inr h))
        · rcases List.mem_cons.mp hq with rfl | hq2
          · exact Or.inl (mem_ins.mpr (Or.inl hy.symm))
          · exact Or.inr ⟨q, hq2, hy, hx2⟩
    · rw [if_neg hxv]
      constructor
      · rintro (h | ⟨q, hq, hy, hx2⟩)
        · exact Or.inl h
        · exact Or.inr ⟨q, List.mem_cons_of_mem _ hq, hy, hx2⟩
      · rintro (h | ⟨q, hq, hy, hx2⟩)
        · exact Or.inl h
        · rcases List.mem_cons.mp hq with rfl | hq2
          · exact absurd hx2 hxv
          · exact Or.inr ⟨q, hq2, hy, hx2⟩

theorem mem_lookupD_invert {G : Graph α} {x y : α} :
    y ∈ lookupD (invert_edge_dict G) x ↔ ∃ p ∈ G, p.1 = y ∧ x ∈ p.2 := by
  rw [invert_edge_dict, mem_lookupD_invertAux]
  simp [lookupD]

theorem mem_keys_addEdge {d : Graph α} {t f x : α} :
    x ∈ keys (addEdge d t f) ↔ x ∈ keys d ∨ x = t := by
  induction d with
  | nil => simp [addEdge, keys]
  | cons p rest ih =>
    obtain ⟨k, v⟩ := p
    by_cases hkt : k = t
    · subst hkt
      rw [addEdge, if_pos rfl]
      simp [keys]
      tauto
    · rw [addEdge, if_neg hkt]
      simp only [keys, List.map_cons, List.mem_cons] at ih ⊢
      tauto

theorem keys_addEdge_nodup {d : Graph α} {t f : α} (h : (keys d).Nodup) :
    (keys (addEdge d t f)).Nodup := by
  induction d with
  | nil => simp [addEdge, keys]
  | cons p rest ih =>
    obtain ⟨k, v⟩ := p
    rw [keys, List.map_cons, List.nodup_cons] at h
    by_cases hkt : k = t
    · subst hkt
      rw [addEdge, if_pos rfl, keys, List.map_cons]
      exact List.nodup_cons.mpr ⟨h.1, h.2⟩
    · rw [addEdge, if_neg hkt, keys, List.map_cons]
      refine List.nodup_cons.mpr ⟨?_, ih h.2⟩
      intro hk
      rcases mem_keys_addEdge.mp hk with hk2 | rfl
      · exact h.1 hk2
      · exact hkt rfl

theorem mem_keys_addEdges {f : α} {ts : List α} :
    ∀ {d : Graph α} {x : α}, x ∈ keys (addEdges f d ts) ↔ x ∈ keys d ∨ x ∈ ts := by
  induction ts with
  | nil => intro d x; simp [addEdges]
  | cons t ts ih =>
    intro d x
    rw [addEdges, ih, mem_keys_addEdge]
    simp only [List.mem_cons]
    tauto

theorem keys_addEdges_nodup {f : α} {ts : List α} :
    ∀ {d : Graph α}, (keys d).Nodup → (keys (addEdges f d ts)).Nodup := by
  induction ts with
  | nil => intro d h; exact h
  | cons t ts ih => intro d h; exact ih (keys_addEdge_nodup h)

theorem mem_keys_invertAux {x : α} :
    ∀ {entries d : Graph α},
      x ∈ keys (invertAux d entries) ↔ x ∈ keys d ∨ ∃ p ∈ entries, x ∈ p.2 := by
  intro entries
  induction entries with
  | nil => intro d; simp [invertAux]
  | cons p rest ih =>
    intro d
    obtain ⟨k, v⟩ := p
    rw [invertAux, ih, mem_keys_addEdges]
    constructor
    · rintro ((h | h) | ⟨q, hq, hx⟩)
      · exact Or.inl h
      · exact Or.inr ⟨(k, v), List.mem_cons_self _ _, h⟩
      · exact Or.inr ⟨q, List.mem_cons_of_mem _ hq, hx⟩
    · rintro (h | ⟨q, hq, hx⟩)
      · exact Or.inl (Or.inl h)
      · rcases List.mem_cons.mp hq with rfl | hq2
        · exact Or.inl (Or.inr hx)
        · exact Or.inr ⟨q, hq2, hx⟩

theorem keys_invertAux_nodup :
    ∀ {entries d : Graph α}, (keys d).Nodup → (keys (invertAux d entries)).Nodup := by
  intro entries
  induction entries with
  | nil => intro d h; exact h
  | cons p rest ih =>
    intro d h
    obtain ⟨k, v⟩ := p
    exact ih (keys_addEdges_nodup h)

theorem invert_keys_nodup (G : Graph α) : (keys (invert_edge_dict G)).Nodup :=
  keys_invertAux_nodup (by simp [keys])

theorem mem_keys_invert {G : Graph α} {x : α} :
    x ∈ keys (invert_edge_dict G) ↔ ∃ p ∈ G, x ∈ p.2 := by
  rw [invert_edge_dict, mem_keys_invertAux]
  simp [keys]

theorem addEdge_values_nodup {d : Graph α} {t f : α}
    (h : ∀ p ∈ d, (p.2 : List α).Nodup) : ∀ p ∈ addEdge d t f, (p.2 : List α).Nodup := by
  induction d with
  | nil =>
    intro p hp
    rw [addEdge] at hp
    rcases List.mem_singleton.mp hp with rfl
    simp
  | cons q rest ih =>
    obtain ⟨k, v⟩ := q
    intro p hp
    by_cases hkt : k = t
    · subst hkt
      rw [addEdge, if_pos rfl] at hp
      rcases List.mem_cons.mp hp with rfl | hp2
      · exact ins_nodup (h (k, v) (List.mem_cons_self _ _))
      · exact h p (List.mem_cons_of_mem _ hp2)
    · rw [addEdge, if_neg hkt] at hp
      rcases List.mem_cons.mp hp with rfl | hp2
      · exact h (k, v) (List.mem_cons_self _ _)
      · exact ih (fun q hq => h q (List.mem_cons_of_mem _ hq)) p hp2

theorem addEdges_values_nodup {f : α} {ts : List α} :
    ∀ {d : Graph α}, (∀ p ∈ d, (p.2 : List α).Nodup) →
      ∀ p ∈ addEdges f d ts, (p.2 : List α).Nodup := by
  induction ts with
  | nil => intro d h; exact h
  | cons t ts ih => intro d h; exact ih (addEdge_values_nodup h)

theorem invertAux_values_nodup :
    ∀ {entries d : Graph α}, (∀ p ∈ d, (p.2 : List α).Nodup) →
      ∀ p ∈ invertAux d entries, (p.2 : List α).Nodup := by
  intro entries
  induction entries with
  | nil => intro d h; exact h
  | cons q rest ih =>
    intro d h
    obtain ⟨k, v⟩ := q
    exact ih (addEdges_values_nodup h)

theorem invert_WF (G : Graph α) : WF (invert_edge_dict G) :=
  ⟨invert_keys_nodup G, invertAux_values_nodup (fun p hp => absurd hp (List.not_mem_nil p))⟩

/-- Under the dictionary typing discipline, the inverted map has edge `x -> y`
exactly when the original has edge `y -> x`. -/
theorem invert_mem_iff {G : Graph α} (hWF : WF G) (x y : α) :
    y ∈ lookupD (invert_edge_dict G) x ↔ x ∈ lookupD G y := by
  rw [mem_lookupD_invert, mem_lookupD_iff hWF.1]
  constructor
  · rintro ⟨⟨a, b⟩, hp, rfl, hx⟩
    exact ⟨b, hp, hx⟩
  · rintro ⟨v, hv, hx⟩
    exact ⟨(y, v), hv, rfl, hx⟩

theorem mem_lookupD_invert_node_set {G : Graph α} {x y : α}
    (h : y ∈ lookupD (invert_edge_dict G) x) : y ∈ edge_dict_to_node_set G := by
  obtain ⟨p, hp, rfl, _⟩ := mem_lookupD_invert.mp h
  exact mem_edge_dict_to_node_set.mpr ⟨p, hp, Or.inl rfl⟩

/-! ### The DFS cycle oracle -/

theorem bad_unfold {G : Graph α} {seen : List α} {cur : α} (hcur : cur ∉ seen) :
    Bad G seen cur ↔ ∃ nxt ∈ lookupD G cur, Bad G (cur :: seen) nxt := by
  constructor
  · rintro ⟨m, hreach, hbad⟩
    rcases Relation.ReflTransGen.cases_head hreach with rfl | ⟨c, hc, hcm⟩
    · rcases hbad with hmem | hcyc
      · exact absurd hmem hcur
      · obtain ⟨c, hc, hcm⟩ := Relation.TransGen.head'_iff.mp hcyc
        exact ⟨c, hc, cur, hcm, Or.inl (List.mem_cons_self _ _)⟩
    · exact ⟨c, hc, m, hcm, hbad.imp (List.mem_cons_of_mem _) id⟩
  · rintro ⟨nxt, hnxt, m, hreach, hbad⟩
    have hstep : Relation.ReflTransGen (EdgeRel G) cur m :=
      Relation.ReflTransGen.head hnxt hreach
    rcases hbad with hmem | hcyc
    · rcases List.mem_cons.mp hmem with heq | hmem2
      · subst heq
        exact ⟨m, Relation.ReflTransGen.refl, Or.inr (Relation.TransGen.head' hnxt hreach)⟩
      · exact ⟨m, hstep, Or.inl hmem2⟩
    · exact ⟨m, hstep, Or.inr hcyc⟩

theorem nodup_length_le {l l2 : List α} (hl : l.Nodup) (hsub : ∀ x ∈ l, x ∈ l2) :
    l.length ≤ l2.length := by
  calc l.length = l.toFinset.card := (List.toFinset_card_of_nodup hl).symm
    _ ≤ l2.toFinset.card := by
        refine Finset.card_le_card ?_
        intro x hx
        exact List.mem_toFinset.mpr (hsub x (List.mem_toFinset.mp hx))
    _ ≤ l2.length := List.toFinset_card_le l2

/-- The DFS helper with sufficient fuel returns `true` exactly when no node
reachable from `cur` is on the active path or on a cycle. -/
theorem helper_true_iff {G : Graph α} :
    ∀ (fuel : Nat) (seen : List α) (cur : α),
      seen.Nodup → (∀ x ∈ seen, x ∈ edge_dict_to_node_set G) →
      cur ∈ edge_dict_to_node_set G →
      (edge_dict_to_node_set G).length + 1 ≤ fuel + seen.length →
      (is_graph_acylic_helper G fuel seen cur = true ↔ ¬ Bad G seen cur) := by
  intro fuel
  induction fuel with
  | zero =>
    intro seen cur hnd hsub _ hfuel
    exfalso
    have hle : seen.length ≤ (edge_dict_to_node_set G).length := nodup_length_le hnd hsub
    omega
  | succ fuel ih =>
    intro seen cur hnd hsub hcur hfuel
    rw [is_graph_acylic_helper]
    by_cases hmem : cur ∈ seen
    · rw [if_pos hmem]
      constructor
      · intro h; exact absurd h (by simp)
      · intro h; exact absurd ⟨cur, Relation.ReflTransGen.refl, Or.inl hmem⟩ h
    · rw [if_neg hmem, List.all_eq_true]
      have hiff : ∀ nxt ∈ lookupD G cur,
          (is_graph_acylic_helper G fuel (cur :: seen) nxt = true ↔ ¬ Bad G (cur :: seen) nxt) := by
        intro nxt hnxt
        refine ih (cur :: seen) nxt (List.nodup_cons.mpr ⟨hmem, hnd⟩) ?_ ?_ ?_
        · intro x hx
          rcases List.mem_cons.mp hx with rfl | hx2
          · exact hcur
          · exact hsub x hx2
        · exact mem_lookupD_node_set hnxt
        · rw [List.length_cons]
          omega
      rw [bad_unfold hmem]
      constructor
      · intro hall
        rintro ⟨nxt, hnxt, hbad⟩
        exact (hiff nxt hnxt).mp (hall nxt hnxt) hbad
      · intro hnone nxt hnxt
        exact (hiff nxt hnxt).mpr (fun hbad => hnone ⟨nxt, hnxt, hbad⟩)

/-- Any node lying on a cycle is in the derived node set. -/
theorem cyclic_mem_node_set {G : Graph α} {a : α}
    (h : Relation.TransGen (EdgeRel G) a a) : a ∈ edge_dict_to_node_set G := by
  obtain ⟨c, hc, _⟩ := Relation.TransGen.head'_iff.mp h
  exact mem_lookupD_key hc

/-- The DFS entry point decides acyclicity. -/
theorem dfs_true_iff_acyclic (G : Graph α) : is_graph_acylic_DFS G = true ↔ Acyclic G := by
  rw [is_graph_acylic_DFS, List.all_eq_true]
  constructor
  · intro h a hcyc
    have ha : a ∈ edge_dict_to_node_set G := cyclic_mem_node_set hcyc
    have hchar := helper_true_iff (dfsFuel G) [] a List.nodup_nil
      (by intro x hx; exact absurd hx (List.not_mem_nil x)) ha (by rw [dfsFuel]; omega)
    exact hchar.mp (h a ha) ⟨a, Relation.ReflTransGen.refl, Or.inr hcyc⟩
  · intro hA s hs
    have hchar := helper_true_iff (dfsFuel G) [] s List.nodup_nil
      (by intro x hx; exact absurd hx (List.not_mem_nil x)) hs (by rw [dfsFuel]; omega)
    refine hchar.mpr ?_
    rintro ⟨m, _, hbad⟩
    rcases hbad with hmem | hcyc
    · exact absurd hmem (List.not_mem_nil m)
    · exact hA m hcyc

/-- The DFS recursion stabilizes once the fuel reaches `dfsFuel`: the chosen
bound is enough for every start node, so the embedded function computes what
the unbounded Python recursion computes. -/
theorem helper_fuel_stable (G : Graph α) {fuel : Nat} (hfuel : dfsFuel G ≤ fuel) {s : α}
    (hs : s ∈ edge_dict_to_node_set G) :
    is_graph_acylic_helper G fuel [] s = is_graph_acylic_helper G (dfsFuel G) [] s := by
  have hnil : ∀ x ∈ ([] : List α), x ∈ edge_dict_to_node_set G := by
    intro x hx; exact absurd hx (List.not_mem_nil x)
  have h1 := helper_true_iff fuel [] s List.nodup_nil hnil hs
    (by rw [dfsFuel] at hfuel; omega)
  have h2 := helper_true_iff (dfsFuel G) [] s List.nodup_nil hnil hs (by rw [dfsFuel]; omega)
  by_cases hbad : Bad G [] s
  · have e1 : is_graph_acylic_helper G fuel [] s = false := by
      cases h : is_graph_acylic_helper G fuel [] s
      · rfl
      · exact absurd hbad (h1.mp h)
    have e2 : is_graph_acylic_helper G (dfsFuel G) [] s = false := by
      cases h : is_graph_acylic_helper G (dfsFuel G) [] s
      · rfl
      · exact absurd hbad (h2.mp h)
    rw [e1, e2]
  · rw [h1.mpr hbad, h2.mpr hbad]

/-! ### The frontier loop of `topological_sort` -/

theorem pushDeps_fst_mem {x : α} :
    ∀ {l fr : List α} {c : α → Nat}, x ∈ (pushDeps l fr c).1 ↔ x ∈ fr ∨ x ∈ l := by
  intro l
  induction l with
  | nil => intro fr c; simp [pushDeps]
  | cons d ds ih =>
    intro fr c
    rw [pushDeps, ih, mem_ins]
    simp only [List.mem_cons]
    tauto

theorem pushDeps_fst_nodup :
    ∀ {l fr : List α} {c : α → Nat}, fr.Nodup → (pushDeps l fr c).1.Nodup := by
  intro l
  induction l with
  | nil => intro fr c h; exact h
  | cons d ds ih => intro fr c h; exact ih (ins_nodup h)

theorem ins_length_le (x : α) (l : List α) : (ins x l).length ≤ l.length + 1 := by
  rw [ins]
  split
  · omega
  · rw [List.length_cons]

theorem pushDeps_fst_length :
    ∀ {l fr : List α} {c : α → Nat}, (pushDeps l fr c).1.length ≤ fr.length + l.length := by
  intro l
  induction l with
  | nil => intro fr c; simp [pushDeps]
  | cons d ds ih =>
    intro fr c
    rw [pushDeps]
    calc (pushDeps ds (ins d fr) _).1.length ≤ (ins d fr).length + ds.length := ih
      _ ≤ fr.length + 1 + ds.length := by
          have := ins_length_le d fr
          omega
      _ = fr.length + (d :: ds).length := by rw [List.length_cons]; omega

theorem pushDeps_snd {x : α} :
    ∀ {l fr : List α} {c : α → Nat}, l.Nodup →
      (pushDeps l fr c).2 x = if x ∈ l then c x + 1 else c x := by
  intro l
  induction l with
  | nil => intro fr c _; simp [pushDeps]
  | cons d ds ih =>
    intro fr c hnd
    rw [List.nodup_cons] at hnd
    rw [pushDeps, ih hnd.2]
    by_cases hxd : x = d
    · subst hxd
      rw [if_neg (fun h => hnd.1 h), if_pos rfl, if_pos (List.mem_cons_self _ _)]
    · by_cases hxds : x ∈ ds
      · rw [if_pos hxds, if_pos (List.mem_cons_of_mem _ hxds), if_neg hxd]
      · rw [if_neg hxds, if_neg hxd,
          if_neg (fun h => (List.mem_cons.mp h).elim hxd hxds)]

theorem kinv_init (G : Graph α) : KInv G (initState G) := by
  refine ⟨List.nodup_nil, ?_, ?_, ?_, ?_, ?_, ?_, ?_, ?_⟩
  · intro x hx; exact absurd hx (List.not_mem_nil x)
  · intro x; exact Iff.rfl
  · intro x hx; exact (List.mem_filter.mp hx).1
  · exact (edge_dict_to_node_set_nodup G).filter _
  · intro x _ hx; exact absurd hx (List.not_mem_nil x)
  · intro x
    simp [initState, List.filter_eq_nil_iff]
  · intro i hi
    exact absurd hi (by simp [initState])
  · intro x hx hxo hdeps
    have hempty : lookupD G x = [] := by
      rcases h : lookupD G x with _ | ⟨d, ds⟩
      · rfl
      · exact absurd (hdeps d (by rw [h]; exact List.mem_cons_self _ _))
          (List.not_mem_nil d)
    refine List.mem_filter.mpr ⟨hx, ?_⟩
    rw [hempty]
    rfl

/-- A placed node has all its dependencies placed. -/
theorem kinv_ord_closed {G : Graph α} {s : SortState α} (h : KInv G s) {a d : α}
    (ha : a ∈ s.ordering) (hd : d ∈ lookupD G a) : d ∈ s.ordering := by
  obtain ⟨⟨i, hi⟩, hgi⟩ := List.mem_iff_get.mp ha
  subst hgi
  exact List.take_subset _ _ (h.depsBefore i hi d hd)

/-- When the loop finds all of a node's dependency counters satisfied, every
dependency of that node has indeed been placed already. -/
theorem counters_full {G : Graph α} {s : SortState α} (h : KInv G s) {cur : α}
    (hge : ¬ s.counters cur < (lookupD G cur).length) :
    ∀ d ∈ lookupD G cur, d ∈ s.ordering := by
  have heq : ((lookupD G cur).filter fun d => decide (d ∈ s.ordering)) = lookupD G cur := by
    refine (List.filter_sublist _).eq_of_length ?_
    have hle : ((lookupD G cur).filter fun d => decide (d ∈ s.ordering)).length ≤
        (lookupD G cur).length := (List.filter_sublist _).length_le
    have := h.ctrEq cur
    omega
  intro d hd
  rw [← heq] at hd
  exact of_decide_eq_true (List.mem_filter.mp hd).2

theorem len_filter_append_one {l : List α} (hl : l.Nodup) {ord : List α} {cur : α}
    (hc : cur ∉ ord) :
    (l.filter fun d => decide (d ∈ ord ++ [cur])).length =
      (l.filter fun d => decide (d ∈ ord)).length + (if cur ∈ l then 1 else 0) := by
  induction l with
  | nil => simp
  | cons a l ih =>
    rw [List.nodup_cons] at hl
    rw [List.filter_cons, List.filter_cons]
    by_cases hac : a = cur
    · subst hac
      rw [if_pos (by simp), if_neg (by simpa using hc), List.length_cons, ih hl.2,
        if_neg hl.1, if_pos (List.mem_cons_self _ _)]
    · have h2 : (if cur ∈ a :: l then 1 else 0) = (if cur ∈ l then 1 else 0) := by
        refine if_congr ?_ rfl rfl
        simp only [List.mem_cons]
        exact or_iff_right (fun h => hac h.symm)
      by_cases ha : a ∈ ord
      · rw [if_pos (by simp [ha]), if_pos (by simpa using ha), List.length_cons,
          List.length_cons, ih hl.2, h2]
        omega
      · rw [if_neg (by simp [ha, hac]), if_neg (by simpa using ha), ih hl.2, h2]

omit [DecidableEq α] in
theorem get_append_length (l : List α) (x : α) (h : l.length < (l ++ [x]).length) :
    (l ++ [x]).get ⟨l.length, h⟩ = x := by
  induction l with
  | nil => rfl
  | cons a l ih => exact ih (by simp)

/-- The loop body preserves the invariant. -/
theorem kinv_step {G : Graph α} (hWF : WF G) {s : SortState α} (h : KInv G s)
    {cur : α} {rest : List α} (hfr : s.frontier = cur :: rest) :
    KInv G (sortStep G (invert_edge_dict G) cur rest s) := by
  have hcur_fr : cur ∈ s.frontier := by rw [hfr]; exact List.mem_cons_self _ _
  have hcur_all : cur ∈ edge_dict_to_node_set G := h.frSub cur hcur_fr
  have hcur_nord : cur ∉ s.ordering := h.frDisj cur hcur_fr
  have hfrnd : (cur :: rest).Nodup := hfr ▸ h.frNodup
  have hcur_rest : cur ∉ rest := (List.nodup_cons.mp hfrnd).1
  have hrest_nd : rest.Nodup := (List.nodup_cons.mp hfrnd).2
  have hrest_fr : ∀ x ∈ rest, x ∈ s.frontier := by
    intro x hx; rw [hfr]; exact List.mem_cons_of_mem _ hx
  rw [sortStep]
  by_cases hlt : s.counters cur < (lookupD G cur).length
  · rw [if_pos hlt]
    refine ⟨h.ordNodup, h.ordSub, h.addedIff, ?_, ?_, ?_, h.ctrEq, h.depsBefore, ?_⟩
    · intro x hx; exact h.frSub x (hrest_fr x hx)
    · exact hrest_nd
    · intro x hx; exact h.frDisj x (hrest_fr x hx)
    · intro x hx hxo hdeps
      have hxfr : x ∈ s.frontier := h.ready x hx hxo hdeps
      rw [hfr] at hxfr
      rcases List.mem_cons.mp hxfr with heq | hxr
      · exfalso
        subst heq
        have hfull : ((lookupD G x).filter fun d => decide (d ∈ s.ordering)) = lookupD G x := by
          refine List.filter_eq_self.mpr ?_
          intro a ha; exact decide_eq_true (hdeps a ha)
        have := h.ctrEq x
        rw [hfull] at this
        omega
      · exact hxr
  · rw [if_neg hlt]
    show KInv G
      { ordering := s.ordering ++ [cur]
        added := ins cur s.added
        counters := (pushDeps (lookupD (invert_edge_dict G) cur) rest s.counters).2
        frontier := (pushDeps (lookupD (invert_edge_dict G) cur) rest s.counters).1 }
    have hdeps_all : ∀ d ∈ lookupD G cur, d ∈ s.ordering := counters_full h hlt
    have hcur_dc : cur ∉ lookupD G cur := fun hc => hcur_nord (hdeps_all cur hc)
    have hic_nd : (lookupD (invert_edge_dict G) cur).Nodup := lookupD_nodup (invert_WF G) cur
    have hic_char : ∀ y, y ∈ lookupD (invert_edge_dict G) cur ↔ cur ∈ lookupD G y :=
      fun y => invert_mem_iff hWF cur y
    have hic_nord : ∀ y ∈ lookupD (invert_edge_dict G) cur, y ∉ s.ordering := by
      intro y hy hyo
      exact hcur_nord (kinv_ord_closed h hyo ((hic_char y).mp hy))
    have hcur_ic : cur ∉ lookupD (invert_edge_dict G) cur :=
      fun hc => hcur_dc ((hic_char cur).mp hc)
    refine ⟨?_, ?_, ?_, ?_, ?_, ?_, ?_, ?_, ?_⟩
    · rw [List.nodup_append]
      exact ⟨h.ordNodup, List.nodup_singleton cur,
        fun a ha hb => hcur_nord ((List.mem_singleton.mp hb) ▸ ha)⟩
    · intro x hx
      rcases List.mem_append.mp hx with hx | hx
      · exact h.ordSub x hx
      · rw [List.mem_singleton.mp hx]; exact hcur_all
    · intro x
      rw [mem_ins, List.mem_append, List.mem_singleton, h.addedIff]
      tauto
    · intro x hx
      rcases pushDeps_fst_mem.mp hx with hx | hx
      · exact h.frSub x (hrest_fr x hx)
      · exact mem_lookupD_invert_node_set hx
    · exact pushDeps_fst_nodup hrest_nd
    · intro x hx hxo
      rcases pushDeps_fst_mem.mp hx with hx | hx
      · rcases List.mem_append.mp hxo with ho | ho
        · exact h.frDisj x (hrest_fr x hx) ho
        · exact hcur_rest ((List.mem_singleton.mp ho) ▸ hx)
      · rcases List.mem_append.mp hxo with ho | ho
        · exact hic_nord x hx ho
        · exact hcur_ic ((List.mem_singleton.mp ho) ▸ hx)
    · intro x
      show (pushDeps (lookupD (invert_edge_dict G) cur) rest s.counters).2 x =
        ((lookupD G x).filter fun d => decide (d ∈ s.ordering ++ [cur])).length
      rw [pushDeps_snd hic_nd, len_filter_append_one (lookupD_nodup hWF x) hcur_nord,
        ← h.ctrEq x]
      by_cases hx : x ∈ lookupD (invert_edge_dict G) cur
      · rw [if_pos hx, if_pos ((hic_char x).mp hx)]
      · rw [if_neg hx, if_neg (fun hc => hx ((hic_char x).mpr hc)), Nat.add_zero]
    · intro i hi d hd
      have hi2 : i < s.ordering.length + 1 := by
        have hcopy := hi
        rw [List.length_append, List.length_singleton] at hcopy
        exact hcopy
      by_cases hilt : i < s.ordering.length
      · rw [List.get_append i hilt] at hd
        rw [List.take_append_of_le_length (le_of_lt hilt)]
        exact h.depsBefore i hilt d hd
      · have hieq : i = s.ordering.length := by omega
        subst hieq
        rw [get_append_length s.ordering cur hi] at hd
        rw [List.take_append_of_le_length (le_refl _), List.take_length]
        exact hdeps_all d hd
    · intro x hx hxo hdeps
      have hxne : x ≠ cur := by
        intro heq
        exact hxo (heq ▸ List.mem_append.mpr (Or.inr (List.mem_singleton.mpr rfl)))
      have hxo2 : x ∉ s.ordering := fun hh => hxo (List.mem_append.mpr (Or.inl hh))
      by_cases hcx : cur ∈ lookupD G x
      · exact pushDeps_fst_mem.mpr (Or.inr ((hic_char x).mpr hcx))
      · have hdeps2 : ∀ d ∈ lookupD G x, d ∈ s.ordering := by
          intro d hd
          rcases List.mem_append.mp (hdeps d hd) with ho | ho
          · exact ho
          · exact absurd ((List.mem_singleton.mp ho) ▸ hd) hcx
        have hxfr := h.ready x hx hxo2 hdeps2
        rw [hfr] at hxfr
        rcases List.mem_cons.mp hxfr with heq | hxr
        · exact absurd heq hxne
        · exact pushDeps_fst_mem.mpr (Or.inl hxr)

theorem sum_filter_drop {l : List α} (hl : l.Nodup) {cur : α} (hc : cur ∈ l)
    {ord : List α} (hco : cur ∉ ord) (f : α → Nat) :
    ((l.filter fun n => decide (n ∉ ord ++ [cur])).map f).sum + f cur =
      ((l.filter fun n => decide (n ∉ ord)).map f).sum := by
  induction l with
  | nil => exact absurd hc (List.not_mem_nil cur)
  | cons a l ih =>
    rw [List.nodup_cons] at hl
    rw [List.filter_cons, List.filter_cons]
    by_cases hac : a = cur
    · subst hac
      rw [if_neg (by simp), if_pos (by simpa using hco), List.map_cons, List.sum_cons]
      have hfeq : (l.filter fun n => decide (n ∉ ord ++ [a])) =
          l.filter fun n => decide (n ∉ ord) := by
        refine List.filter_congr ?_
        intro n hn
        have hna : n ≠ a := fun h => hl.1 (h ▸ hn)
        simp [hna]
      rw [hfeq]
      omega
    · have hcl : cur ∈ l := (List.mem_cons.mp hc).resolve_left (fun h => hac h.symm)
      by_cases ha : a ∈ ord
      · rw [if_neg (by simp [ha]), if_neg (by simpa using ha)]
        exact ih hl.2 hcl
      · rw [if_pos (by simp [ha, hac]), if_pos (by simpa using ha), List.map_cons,
          List.sum_cons, List.map_cons, List.sum_cons]
        have := ih hl.2 hcl
        omega

/-- Every iteration of the frontier loop strictly decreases the measure. -/
theorem phi_step_lt {G : Graph α} {s : SortState α} (h : KInv G s)
    {cur : α} {rest : List α} (hfr : s.frontier = cur :: rest) :
    phi G (sortStep G (invert_edge_dict G) cur rest s) < phi G s := by
  have hcur_fr : cur ∈ s.frontier := by rw [hfr]; exact List.mem_cons_self _ _
  have hcur_all : cur ∈ edge_dict_to_node_set G := h.frSub cur hcur_fr
  have hcur_nord : cur ∉ s.ordering := h.frDisj cur hcur_fr
  rw [sortStep]
  by_cases hlt : s.counters cur < (lookupD G cur).length
  · rw [if_pos hlt]
    show rest.length + phiSum G s.ordering < s.frontier.length + phiSum G s.ordering
    rw [hfr, List.length_cons]
    omega
  · rw [if_neg hlt]
    show (pushDeps (lookupD (invert_edge_dict G) cur) rest s.counters).1.length +
      phiSum G (s.ordering ++ [cur]) < s.frontier.length + phiSum G s.ordering
    have h1 : (pushDeps (lookupD (invert_edge_dict G) cur) rest s.counters).1.length ≤
        rest.length + (lookupD (invert_edge_dict G) cur).length := pushDeps_fst_length
    have h2 : phiSum G (s.ordering ++ [cur]) +
        (1 + (lookupD (invert_edge_dict G) cur).length) = phiSum G s.ordering :=
      sum_filter_drop (edge_dict_to_node_set_nodup G) hcur_all hcur_nord
        (fun n => 1 + (lookupD (invert_edge_dict G) n).length)
    rw [hfr, List.length_cons]
    omega

theorem kinv_run {G : Graph α} (hWF : WF G) :
    ∀ (fuel : Nat) {s : SortState α}, KInv G s →
      KInv G (sortRun G (invert_edge_dict G) fuel s) := by
  intro fuel
  induction fuel with
  | zero => intro s h; exact h
  | succ fuel ih =>
    intro s h
    rw [sortRun]
    cases hfr : s.frontier with
    | nil => exact h
    | cons cur rest => exact ih (kinv_step hWF h hfr)

/-- With fuel at least the measure, the loop runs the frontier down to
empty: this is the termination of the Python `while frontier` loop. -/
theorem sortRun_frontier_empty {G : Graph α} (hWF : WF G) :
    ∀ (fuel : Nat) {s : SortState α}, KInv G s → phi G s ≤ fuel →
      (sortRun G (invert_edge_dict G) fuel s).frontier = [] := by
  intro fuel
  induction fuel with
  | zero =>
    intro s _ hphi
    rw [sortRun]
    have hlen : s.frontier.length = 0 := by
      rw [phi] at hphi
      omega
    exact List.length_eq_zero.mp hlen
  | succ fuel ih =>
    intro s h hphi
    rw [sortRun]
    cases hfr : s.frontier with
    | nil => exact hfr
    | cons cur rest =>
      refine ih (kinv_step hWF h hfr) ?_
      have := phi_step_lt h hfr
      omega

theorem sortRun_stable (G inv : Graph α) (fuel : Nat) {s : SortState α}
    (h : s.frontier = []) : sortRun G inv fuel s = s := by
  cases fuel with
  | zero => rfl
  | succ fuel => rw [sortRun, h]

theorem sortRun_add (G inv : Graph α) (a b : Nat) :
    ∀ s : SortState α, sortRun G inv (a + b) s = sortRun G inv b (sortRun G inv a s) := by
  induction a with
  | zero => intro s; rw [Nat.zero_add]; rfl
  | succ a ih =>
    intro s
    rw [Nat.succ_add, sortRun, sortRun]
    cases hfr : s.frontier with
    | nil => exact (sortRun_stable G inv b hfr).symm
    | cons cur rest => exact ih (sortStep G inv cur rest s)

/-- Extra fuel beyond `kahnFuel` changes nothing: the embedded loop has
stabilized, having emptied the frontier. -/
theorem sortRun_fuel_stable {G : Graph α} (hWF : WF G) {fuel : Nat}
    (hfuel : kahnFuel G ≤ fuel) :
    sortRun G (invert_edge_dict G) fuel (initState G) =
      sortRun G (invert_edge_dict G) (kahnFuel G) (initState G) := by
  obtain ⟨d, rfl⟩ := Nat.exists_eq_add_of_le hfuel
  rw [sortRun_add]
  exact sortRun_stable _ _ _
    (sortRun_frontier_empty hWF (kahnFuel G) (kinv_init G) (le_refl _))

/-! ### Positions in the produced ordering -/

theorem posOf_lt_of_mem_take {x : α} :
    ∀ {l : List α} {j : Nat}, x ∈ l.take j → posOf x l < j := by
  intro l
  induction l with
  | nil => intro j h; rw [List.take_nil] at h; exact absurd h (List.not_mem_nil x)
  | cons y ys ih =>
    intro j h
    cases j with
    | zero => rw [List.take_zero] at h; exact absurd h (List.not_mem_nil x)
    | succ j =>
      rw [List.take_succ_cons] at h
      rw [posOf]
      by_cases hyx : y = x
      · rw [if_pos hyx]; omega
      · rw [if_neg hyx]
        have hx : x ∈ ys.take j := by
          rcases List.mem_cons.mp h with heq | h2
          · exact absurd heq.symm hyx
          · exact h2
        have := ih hx
        omega

theorem posOf_get {l : List α} (hnd : l.Nodup) :
    ∀ {i : Nat} (hi : i < l.length), posOf (l.get ⟨i, hi⟩) l = i := by
  induction l with
  | nil => intro i hi; exact absurd hi (by simp)
  | cons y ys ih =>
    rw [List.nodup_cons] at hnd
    intro i hi
    cases i with
    | zero => simp [posOf]
    | succ i =>
      have hget : (y :: ys).get ⟨i + 1, hi⟩ = ys.get ⟨i, by simpa using hi⟩ := rfl
      rw [hget, posOf]
      have hne : y ≠ ys.get ⟨i, by simpa using hi⟩ := by
        intro heq
        exact hnd.1 (heq ▸ List.get_mem ys _ _)
      rw [if_neg hne, ih hnd.2]

/-- An edge target is placed strictly earlier than its dependant. -/
theorem kinv_edge_before {G : Graph α} {s : SortState α} (h : KInv G s) {a b : α}
    (ha : a ∈ s.ordering) (hb : b ∈ lookupD G a) :
    b ∈ s.ordering ∧ posOf b s.ordering < posOf a s.ordering := by
  obtain ⟨⟨i, hi⟩, hgi⟩ := List.mem_iff_get.mp ha
  have hbt := h.depsBefore i hi b (by rw [hgi]; exact hb)
  refine ⟨List.take_subset _ _ hbt, ?_⟩
  have h1 : posOf b s.ordering < i := posOf_lt_of_mem_take hbt
  rw [← hgi, posOf_get h.ordNodup]
  exact h1

/-- Along any dependency path the position strictly decreases. -/
theorem kinv_trans_before {G : Graph α} {s : SortState α} (h : KInv G s) {a b : α}
    (hab : Relation.TransGen (EdgeRel G) a b) (ha : a ∈ s.ordering) :
    b ∈ s.ordering ∧ posOf b s.ordering < posOf a s.ordering := by
  induction hab with
  | single hstep => exact kinv_edge_before h ha hstep
  | tail _ hstep ih =>
    obtain ⟨hbo, hlt⟩ := ih
    obtain ⟨hco, hlt2⟩ := kinv_edge_before h hbo hstep
    exact ⟨hco, by omega⟩

/-! ### Completeness and soundness of the frontier loop -/

/-- Pigeonhole: a nonempty finite set in which every element has a successor
inside the set contains a node on a cycle. -/
theorem cycle_of_succ {S : List α} (hne : S ≠ []) {r : α → α → Prop}
    (hstep : ∀ x ∈ S, ∃ y ∈ S, r x y) : ∃ m, Relation.TransGen r m m := by
  classical
  have hmem0 : S.head hne ∈ S := List.head_mem hne
  obtain ⟨f, hf⟩ : ∃ f : α → α, ∀ x ∈ S, f x ∈ S ∧ r x (f x) := by
    refine ⟨fun x => if hx : x ∈ S then (hstep x hx).choose else x, ?_⟩
    intro x hx
    dsimp only
    rw [dif_pos hx]
    exact (hstep x hx).choose_spec
  have hg : ∀ n : Nat, (f^[n] (S.head hne)) ∈ S := by
    intro n
    induction n with
    | zero => exact hmem0
    | succ n ih =>
      rw [Function.iterate_succ_apply']
      exact (hf _ ih).1
  have hstep2 : ∀ n : Nat, r (f^[n] (S.head hne)) (f^[n + 1] (S.head hne)) := by
    intro n
    rw [Function.iterate_succ_apply']
    exact (hf _ (hg n)).2
  have hchain : ∀ j i : Nat, i < j →
      Relation.TransGen r (f^[i] (S.head hne)) (f^[j] (S.head hne)) := by
    intro j
    induction j with
    | zero => intro i hi; omega
    | succ j ih =>
      intro i hi
      by_cases hj : i < j
      · exact (ih i hj).tail (hstep2 j)
      · have hij : i = j := by omega
        subst hij
        exact Relation.TransGen.single (hstep2 i)
  have hcard : S.toFinset.card < (Finset.range (S.length + 1)).card := by
    rw [Finset.card_range]
    have := List.toFinset_card_le S
    omega
  obtain ⟨i, _, j, _, hij, heq⟩ := Finset.exists_ne_map_eq_of_card_lt_of_maps_to hcard
    (fun n _ => List.mem_toFinset.mpr (hg n))
  rcases Nat.lt_or_ge i j with hlt | hge
  · refine ⟨f^[j] (S.head hne), ?_⟩
    have h3 := hchain j i hlt
    rw [heq] at h3
    exact h3
  · have hlt : j < i := by omega
    refine ⟨f^[j] (S.head hne), ?_⟩
    have h3 := hchain i j hlt
    rw [heq] at h3
    exact h3

/-- On an acyclic well-formed graph the loop places every node. -/
theorem kahn_complete {G : Graph α} (hWF : WF G) (hA : Acyclic G) :
    ∀ x ∈ edge_dict_to_node_set G,
      x ∈ (sortRun G (invert_edge_dict G) (kahnFuel G) (initState G)).ordering := by
  by_contra hcon
  push_neg at hcon
  obtain ⟨x0, hx0, hx0n⟩ := hcon
  have hKI : KInv G (sortRun G (invert_edge_dict G) (kahnFuel G) (initState G)) :=
    kinv_run hWF _ (kinv_init G)
  have hfr : (sortRun G (invert_edge_dict G) (kahnFuel G) (initState G)).frontier = [] :=
    sortRun_frontier_empty hWF _ (kinv_init G) (le_refl _)
  have hSne : (edge_dict_to_node_set G).filter
      (fun n => decide (n ∉ (sortRun G (invert_edge_dict G) (kahnFuel G) (initState G)).ordering))
      ≠ [] := by
    intro hnil
    have hx0S : x0 ∈ (edge_dict_to_node_set G).filter
        (fun n => decide (n ∉ (sortRun G (invert_edge_dict G) (kahnFuel G) (initState G)).ordering)) :=
      List.mem_filter.mpr ⟨hx0, by simpa using hx0n⟩
    rw [hnil] at hx0S
    exact List.not_mem_nil x0 hx0S
  have hstep : ∀ x ∈ (edge_dict_to_node_set G).filter
      (fun n => decide (n ∉ (sortRun G (invert_edge_dict G) (kahnFuel G) (initState G)).ordering)),
      ∃ y ∈ (edge_dict_to_node_set G).filter
      (fun n => decide (n ∉ (sortRun G (invert_edge_dict G) (kahnFuel G) (initState G)).ordering)),
      EdgeRel G x y := by
    intro x hx
    obtain ⟨hxall, hxord⟩ := List.mem_filter.mp hx
    have hxord2 : x ∉ (sortRun G (invert_edge_dict G) (kahnFuel G) (initState G)).ordering := by
      simpa using hxord
    have hnot : ¬ ∀ d ∈ lookupD G x,
        d ∈ (sortRun G (invert_edge_dict G) (kahnFuel G) (initState G)).ordering := by
      intro hall
      have hxf := hKI.ready x hxall hxord2 hall
      rw [hfr] at hxf
      exact List.not_mem_nil x hxf
    push_neg at hnot
    obtain ⟨d, hd, hdn⟩ := hnot
    exact ⟨d, List.mem_filter.mpr ⟨mem_lookupD_node_set hd, by simpa using hdn⟩, hd⟩
  obtain ⟨m, hm⟩ := cycle_of_succ hSne hstep
  exact hA m hm

/-- A node on a cycle is never placed by the loop. -/
theorem kahn_cyclic_not_added {G : Graph α} (hWF : WF G) {m : α}
    (hm : Relation.TransGen (EdgeRel G) m m) :
    m ∉ (sortRun G (invert_edge_dict G) (kahnFuel G) (initState G)).ordering := by
  intro hmem
  have hKI := kinv_run hWF (kahnFuel G) (kinv_init G)
  have := (kinv_trans_before hKI hm hmem).2
  omega

/-! ### `topological_sort`: outcome characterization -/

theorem topological_sort_eq_some {G : Graph α} (hWF : WF G) (hA : Acyclic G) :
    topological_sort G =
      some (sortRun G (invert_edge_dict G) (kahnFuel G) (initState G)).ordering := by
  have hKI : KInv G (sortRun G (invert_edge_dict G) (kahnFuel G) (initState G)) :=
    kinv_run hWF _ (kinv_init G)
  rw [topological_sort, if_pos]
  rw [List.all_eq_true]
  intro n hn
  exact decide_eq_true ((hKI.addedIff n).mpr (kahn_complete hWF hA n hn))

theorem topological_sort_eq_none {G : Graph α} (hWF : WF G)
    (hcyc : ∃ m, Relation.TransGen (EdgeRel G) m m) : topological_sort G = none := by
  obtain ⟨m, hm⟩ := hcyc
  rw [topological_sort, if_neg]
  intro hall
  rw [List.all_eq_true] at hall
  have hKI := kinv_run hWF (kahnFuel G) (kinv_init G)
  have hmall : m ∈ edge_dict_to_node_set G := cyclic_mem_node_set hm
  have hmord := (hKI.addedIff m).mp (of_decide_eq_true (hall m hmall))
  exact kahn_cyclic_not_added hWF hm hmord

theorem topological_sort_isSome_iff {G : Graph α} (hWF : WF G) :
    (topological_sort G).isSome = true ↔ Acyclic G := by
  constructor
  · intro h
    by_contra hA
    rw [Acyclic] at hA
    push_neg at hA
    obtain ⟨m, hm⟩ := hA
    rw [topological_sort_eq_none hWF ⟨m, hm⟩] at h
    exact absurd h (by simp)
  · intro hA
    rw [topological_sort_eq_some hWF hA]
    rfl

/-- The two acyclicity checks agree on every well-formed graph. -/
theorem dfs_eq_toplogical {G : Graph α} (hWF : WF G) :
    is_graph_acylic_DFS G = is_graph_acyclic_toplogical G := by
  have h1 := dfs_true_iff_acyclic G
  have h2 := topological_sort_isSome_iff hWF
  rw [is_graph_acyclic_toplogical]
  by_cases hA : Acyclic G
  · rw [h1.mpr hA, h2.mpr hA]
  · have e1 : is_graph_acylic_DFS G = false := by
      cases h : is_graph_acylic_DFS G
      · rfl
      · exact absurd (h1.mp h) hA
    have e2 : (topological_sort G).isSome = false := by
      cases h : (topological_sort G).isSome
      · rfl
      · exact absurd (h2.mp h) hA
    rw [e1, e2]

/-! ### Frame lemmas for the heap model -/

theorem heapSet_length (h : Heap α) (r : Nat) (v : List α) :
    (heapSet h r v).length = h.length := by
  simp [heapSet]

theorem heapGet_set_ne :
    ∀ (h : Heap α) {r r2 : Nat}, r2 ≠ r → ∀ (v : List α),
      heapGet (heapSet h r v) r2 = heapGet h r2 := by
  intro h
  induction h with
  | nil => intro r r2 _ v; rfl
  | cons a t ih =>
    intro r r2 hne v
    cases r with
    | zero =>
      cases r2 with
      | zero => exact absurd rfl hne
      | succ r2 => rfl
    | succ r =>
      cases r2 with
      | zero => rfl
      | succ r2 =>
        show heapGet (heapSet t r v) r2 = heapGet t r2
        exact ih (fun hh => hne (by rw [hh])) v

theorem heapGet_append_lt {h : Heap α} {r : Nat} :
    r < h.length → ∀ (h2 : Heap α), heapGet (h ++ h2) r = heapGet h r := by
  induction h generalizing r with
  | nil => intro hr; exact absurd hr (by simp)
  | cons a t ih =>
    intro hr h2
    cases r with
    | zero => rfl
    | succ r =>
      show heapGet (t ++ h2) r = heapGet t r
      exact ih (by simpa using hr) h2

theorem heapExt_refl (n0 : Nat) (h : Heap α) : HeapExt n0 h h :=
  ⟨le_refl _, fun _ _ => rfl⟩

theorem heapExt_trans {n0 : Nat} {h1 h2 h3 : Heap α}
    (a : HeapExt n0 h1 h2) (b : HeapExt n0 h2 h3) : HeapExt n0 h1 h3 :=
  ⟨le_trans a.1 b.1, fun r hr => (b.2 r hr).trans (a.2 r hr)⟩

theorem heapExt_set {n0 r : Nat} (hr : n0 ≤ r) (h : Heap α) (v : List α) :
    HeapExt n0 h (heapSet h r v) :=
  ⟨by rw [heapSet_length], fun r2 hr2 => heapGet_set_ne h (by omega) v⟩

theorem heapExt_alloc {n0 : Nat} {h : Heap α} (hn : n0 ≤ h.length) (v : List α) :
    HeapExt n0 h (h ++ [v]) :=
  ⟨by rw [List.length_append]; omega, fun r hr => heapGet_append_lt (by omega) [v]⟩

theorem dlookupH_ext {n0 : Nat} {h : Heap α} (hn : n0 ≤ h.length) (D : GraphR α) (x : α) :
    HeapExt n0 h (dlookupH D x h).2.2 := by
  cases hc : dlookupR D x with
  | some r => rw [dlookupH, hc]; exact heapExt_refl n0 h
  | none => rw [dlookupH, hc]; exact heapExt_alloc hn []

theorem nodeSetH_ext {n0 : Nat} :
    ∀ (D : GraphR α) {acc : Nat}, n0 ≤ acc → ∀ (h : Heap α),
      HeapExt n0 h (nodeSetH D acc h) := by
  intro D
  induction D with
  | nil => intro acc _ h; exact heapExt_refl n0 h
  | cons p rest ih =>
    intro acc hacc h
    obtain ⟨k, r⟩ := p
    rw [nodeSetH]
    exact heapExt_trans (heapExt_set hacc h _) (ih hacc _)

theorem addEdgeH_ext {n0 : Nat} :
    ∀ (d : GraphR α) (t f : α) (h : Heap α), GoodR n0 d → n0 ≤ h.length →
      HeapExt n0 h (addEdgeH d t f h).2 ∧ GoodR n0 (addEdgeH d t f h).1 := by
  intro d
  induction d with
  | nil =>
    intro t f h _ hn
    rw [addEdgeH]
    refine ⟨heapExt_alloc hn _, ?_⟩
    intro p hp
    rcases List.mem_singleton.mp hp with rfl
    exact hn
  | cons q rest ih =>
    intro t f h hg hn
    obtain ⟨k, r⟩ := q
    by_cases hkt : k = t
    · rw [addEdgeH, if_pos hkt]
      exact ⟨heapExt_set (hg (k, r) (List.mem_cons_self _ _)) h _, hg⟩
    · rw [addEdgeH, if_neg hkt]
      have hgrest : GoodR n0 rest := fun p hp => hg p (List.mem_cons_of_mem _ hp)
      obtain ⟨he, hgout⟩ := ih t f h hgrest hn
      rcases hq : addEdgeH rest t f h with ⟨d1, h1⟩
      rw [hq] at he hgout
      refine ⟨he, ?_⟩
      intro p hp
      rcases List.mem_cons.mp hp with heq | hp2
      · rw [heq]; exact hg (k, r) (List.mem_cons_self _ _)
      · exact hgout p hp2

theorem addEdgesH_ext {n0 : Nat} (f : α) :
    ∀ (ts : List α) (d : GraphR α) (h : Heap α), GoodR n0 d → n0 ≤ h.length →
      HeapExt n0 h (addEdgesH f d ts h).2 ∧ GoodR n0 (addEdgesH f d ts h).1 := by
  intro ts
  induction ts with
  | nil => intro d h hg _; exact ⟨heapExt_refl n0 h, hg⟩
  | cons t ts ih =>
    intro d h hg hn
    obtain ⟨he1, hg1⟩ := addEdgeH_ext d t f h hg hn
    rw [addEdgesH]
    rcases hq : addEdgeH d t f h with ⟨d1, h1⟩
    rw [hq] at he1 hg1
    obtain ⟨he2, hg2⟩ := ih d1 h1 hg1 (le_trans hn he1.1)
    exact ⟨heapExt_trans he1 he2, hg2⟩

theorem invertAuxH_ext {n0 : Nat} :
    ∀ (entries d : GraphR α) (h : Heap α), GoodR n0 d → n0 ≤ h.length →
      HeapExt n0 h (invertAuxH d entries h).2 ∧ GoodR n0 (invertAuxH d entries h).1 := by
  intro entries
  induction entries with
  | nil => intro d h hg _; exact ⟨heapExt_refl n0 h, hg⟩
  | cons p rest ih =>
    intro d h hg hn
    obtain ⟨k, r⟩ := p
    obtain ⟨he1, hg1⟩ := addEdgesH_ext k (heapGet h r) d h hg hn
    rw [invertAuxH]
    rcases hq : addEdgesH k d (heapGet h r) h with ⟨d1, h1⟩
    rw [hq] at he1 hg1
    obtain ⟨he2, hg2⟩ := ih d1 h1 hg1 (le_trans hn he1.1)
    exact ⟨heapExt_trans he1 he2, hg2⟩

theorem invert_edge_dictH_ext {n0 : Nat} (G : GraphR α) {h : Heap α} (hn : n0 ≤ h.length) :
    HeapExt n0 h (invert_edge_dictH G h).2 ∧ GoodR n0 (invert_edge_dictH G h).1 :=
  invertAuxH_ext G [] h (fun p hp => absurd hp (List.not_mem_nil p)) hn

theorem andThread_ext {n0 : Nat} {f : α → GraphR α → Heap α → Bool × GraphR α × Heap α}
    (hf : ∀ (x : α) (D : GraphR α) (h : Heap α), n0 ≤ h.length →
      HeapExt n0 h (f x D h).2.2) :
    ∀ (l : List α) (D : GraphR α) (h : Heap α), n0 ≤ h.length →
      HeapExt n0 h (andThread f l D h).2.2 := by
  intro l
  induction l with
  | nil => intro D h _; exact heapExt_refl n0 h
  | cons d ds ih =>
    intro D h hn
    have hext1 : HeapExt n0 h (f d D h).2.2 := hf d D h hn
    rcases hfd : f d D h with ⟨b, D1, h1⟩
    rw [hfd] at hext1
    rw [andThread, hfd]
    cases b
    · exact hext1
    · exact heapExt_trans hext1 (ih D1 h1 (le_trans hn hext1.1))

theorem helperH_ext {n0 : Nat} :
    ∀ (fuel : Nat) (D : GraphR α) (rs : Nat) (cur : α) (h : Heap α),
      n0 ≤ rs → n0 ≤ h.length → HeapExt n0 h (helperH fuel D rs cur h).2.2 := by
  intro fuel
  induction fuel with
  | zero => intro D rs cur h _ _; exact heapExt_refl n0 h
  | succ fuel ih =>
    intro D rs cur h hrs hn
    rw [helperH]
    by_cases hc : cur ∈ heapGet h rs
    · rw [if_pos hc]
      exact heapExt_refl n0 h
    · rw [if_neg hc]
      have he1 : HeapExt n0 h (heapSet h rs (ins cur (heapGet h rs))) := heapExt_set hrs h _
      have hn1 : n0 ≤ (heapSet h rs (ins cur (heapGet h rs))).length := by
        rw [heapSet_length]; exact hn
      split
      next deps D1 h1 hq =>
        have he2 : HeapExt n0 (heapSet h rs (ins cur (heapGet h rs))) h1 := by
          have hdl := dlookupH_ext hn1 D cur
          rw [hq] at hdl
          exact hdl
        have hn2 : n0 ≤ h1.length := le_trans hn1 he2.1
        have he3 : HeapExt n0 h1
            (andThread (fun nxt D2 h2 => helperH fuel D2 rs nxt h2) deps D1 h1).2.2 :=
          andThread_ext (fun nxt D2 h2 hn2b => ih D2 rs nxt h2 hrs hn2b) deps D1 h1 hn2
        have hall : HeapExt n0 h
            (andThread (fun nxt D2 h2 => helperH fuel D2 rs nxt h2) deps D1 h1).2.2 :=
          heapExt_trans he1 (heapExt_trans he2 he3)
        split
        next D3 h3 hq2 =>
          rw [hq2] at hall
          exact hall
        next D3 h3 hq2 =>
          rw [hq2] at hall
          exact heapExt_trans hall (heapExt_set hrs h3 _)

theorem dfsAllH_ext {n0 : Nat} (fuel : Nat) :
    ∀ (l : List α) (D : GraphR α) (h : Heap α), n0 ≤ h.length →
      HeapExt n0 h (dfsAllH fuel l D h).2.2 := by
  intro l
  induction l with
  | nil => intro D h _; exact heapExt_refl n0 h
  | cons st ss ih =>
    intro D h hn
    have ha : HeapExt n0 h (h ++ [[]]) := heapExt_alloc hn []
    have hn1 : n0 ≤ (h ++ [[]] : Heap α).length := le_trans hn ha.1
    have hh : HeapExt n0 (h ++ [[]]) (helperH fuel D h.length st (h ++ [[]])).2.2 :=
      helperH_ext fuel D h.length st (h ++ [[]]) hn hn1
    rcases hq : helperH fuel D h.length st (h ++ [[]]) with ⟨b, D1, h1⟩
    rw [hq] at hh
    rw [dfsAllH, hq]
    cases b
    · exact heapExt_trans ha hh
    · exact heapExt_trans (heapExt_trans ha hh) (ih D1 h1 (le_trans hn1 hh.1))

theorem edge_dict_to_node_setH_ext {n0 : Nat} (G : GraphR α) {h : Heap α}
    (hn : n0 ≤ h.length) : HeapExt n0 h (edge_dict_to_node_setH G h).2 := by
  rw [edge_dict_to_node_setH]
  exact heapExt_trans (heapExt_alloc hn []) (nodeSetH_ext G (le_trans hn (by simp)) _)

theorem is_graph_acylic_DFS_H_ext {n0 : Nat} (fuel : Nat) (G : GraphR α) {h : Heap α}
    (hn : n0 ≤ h.length) : HeapExt n0 h (is_graph_acylic_DFS_H fuel G h).2 := by
  rw [is_graph_acylic_DFS_H]
  split
  next allR h1 hq =>
    have he1 : HeapExt n0 h h1 := by
      have hns := edge_dict_to_node_setH_ext G hn
      rw [hq] at hns
      exact hns
    split
    next b x h2 hq2 =>
      have he2 : HeapExt n0 h1 h2 := by
        have hdf := dfsAllH_ext fuel (heapGet h1 allR) G h1 (le_trans hn he1.1)
        rw [hq2] at hdf
        exact hdf
      exact heapExt_trans he1 he2

theorem terminalH_ext {n0 : Nat} :
    ∀ (l : List α) (D : GraphR α) {rt : Nat}, n0 ≤ rt → ∀ (h : Heap α), n0 ≤ h.length →
      HeapExt n0 h (terminalH l D rt h).2 := by
  intro l
  induction l with
  | nil => intro D rt _ h _; exact heapExt_refl n0 h
  | cons n ns ih =>
    intro D rt hrt h hn
    rw [terminalH]
    split
    next deps D1 h1 hq =>
      have he1 : HeapExt n0 h h1 := by
        have hdl := dlookupH_ext hn D n
        rw [hq] at hdl
        exact hdl
      have hn1 : n0 ≤ h1.length := le_trans hn he1.1
      by_cases hd : deps.isEmpty
      · rw [if_pos hd]
        refine heapExt_trans he1
          (heapExt_trans (heapExt_set hrt h1 (ins n (heapGet h1 rt)))
            (ih D1 hrt (heapSet h1 rt (ins n (heapGet h1 rt))) ?_))
        rw [heapSet_length]
        exact hn1
      · rw [if_neg hd]
        exact heapExt_trans he1 (ih D1 hrt h1 hn1)

theorem pushDepsH_ext {n0 : Nat} :
    ∀ (l : List α) {rf : Nat}, n0 ≤ rf → ∀ (c : α → Nat) (h : Heap α),
      HeapExt n0 h (pushDepsH l rf c h).2 := by
  intro l
  induction l with
  | nil => intro rf _ c h; exact heapExt_refl n0 h
  | cons d ds ih =>
    intro rf hrf c h
    rw [pushDepsH]
    exact heapExt_trans (heapExt_set hrf h _) (ih hrf _ _)

theorem stepH_ext {n0 : Nat} (s : SortStateH α) (cur : α) (h : Heap α)
    (hrf : n0 ≤ s.rf) (hn : n0 ≤ h.length) :
    HeapExt n0 h (stepH s cur h).2 ∧ (stepH s cur h).1.rf = s.rf := by
  rw [stepH]
  split
  next deps dct1 h1 hq =>
    have he1 : HeapExt n0 h h1 := by
      have hdl := dlookupH_ext hn s.dct cur
      rw [hq] at hdl
      exact hdl
    have hn1 : n0 ≤ h1.length := le_trans hn he1.1
    by_cases hlt : s.counters cur < deps.length
    · rw [if_pos hlt]
      exact ⟨he1, rfl⟩
    · rw [if_neg hlt]
      split
      next ideps inv1 h2 hq2 =>
        have he2 : HeapExt n0 h1 h2 := by
          have hdl := dlookupH_ext hn1 s.inv cur
          rw [hq2] at hdl
          exact hdl
        split
        next c1 h3 hq3 =>
          have he3 : HeapExt n0 h2 h3 := by
            have hpd := pushDepsH_ext ideps hrf s.counters h2
            rw [hq3] at hpd
            exact hpd
          exact ⟨heapExt_trans he1 (heapExt_trans he2 he3), rfl⟩

theorem runH_ext {n0 : Nat} :
    ∀ (fuel : Nat) (s : SortStateH α) (h : Heap α), n0 ≤ s.rf → n0 ≤ h.length →
      HeapExt n0 h (runH fuel s h).2 := by
  intro fuel
  induction fuel with
  | zero => intro s h _ _; exact heapExt_refl n0 h
  | succ fuel ih =>
    intro s h hrf hn
    rw [runH]
    cases hfr : heapGet h s.rf with
    | nil => exact heapExt_refl n0 h
    | cons cur rest =>
      have hepop : HeapExt n0 h (heapSet h s.rf rest) := heapExt_set hrf h rest
      have hnp : n0 ≤ (heapSet h s.rf rest).length := by rw [heapSet_length]; exact hn
      show HeapExt n0 h (match stepH s cur (heapSet h s.rf rest) with
        | (s1, h1) => runH fuel s1 h1).2
      split
      next s1 h1 hq =>
        obtain ⟨hes, hrfs⟩ : HeapExt n0 (heapSet h s.rf rest) h1 ∧ s1.rf = s.rf := by
          have hst := stepH_ext s cur (heapSet h s.rf rest) hrf hnp
          rw [hq] at hst
          exact hst
        refine heapExt_trans hepop (heapExt_trans hes (ih s1 h1 ?_ (le_trans hnp hes.1)))
        rw [hrfs]
        exact hrf

theorem topological_sortH_ext {n0 : Nat} (fuel : Nat) (G : GraphR α) {h : Heap α}
    (hn : n0 ≤ h.length) : HeapExt n0 h (topological_sortH fuel G h).2 := by
  rw [topological_sortH]
  split
  next invD h1 hq1 =>
    have he1 : HeapExt n0 h h1 := by
      have hinv := (invert_edge_dictH_ext G hn).1
      rw [hq1] at hinv
      exact hinv
    have hn1 : n0 ≤ h1.length := le_trans hn he1.1
    split
    next allR h2 hq2 =>
      have he2 : HeapExt n0 h1 h2 := by
        have hns := edge_dict_to_node_setH_ext G hn1
        rw [hq2] at hns
        exact hns
      have hn2 : n0 ≤ h2.length := le_trans hn1 he2.1
      have hea : HeapExt n0 h2 (h2 ++ [[]]) := heapExt_alloc hn2 []
      have hn2a : n0 ≤ (h2 ++ [[]] : Heap α).length := le_trans hn2 hea.1
      split
      next dct1 h3 hq3 =>
        have he3 : HeapExt n0 (h2 ++ [[]]) h3 := by
          have ht := terminalH_ext (heapGet h2 allR) G hn2 (h2 ++ [[]]) hn2a
          rw [hq3] at ht
          exact ht
        have hn3 : n0 ≤ h3.length := le_trans hn2a he3.1
        split
        next sf h4 hq4 =>
          have he4 : HeapExt n0 h3 h4 := by
            have hr := runH_ext fuel
              { ordering := [], added := [], counters := fun _ => 0,
                dct := dct1, inv := invD, rf := h2.length } h3 hn2 hn3
            rw [hq4] at hr
            exact hr
          have hall : HeapExt n0 h h4 :=
            heapExt_trans he1
              (heapExt_trans he2 (heapExt_trans hea (heapExt_trans he3 he4)))
          split
          · exact hall
          · exact hall

theorem is_graph_acyclic_toplogicalH_ext {n0 : Nat} (fuel : Nat) (G : GraphR α) {h : Heap α}
    (hn : n0 ≤ h.length) : HeapExt n0 h (is_graph_acyclic_toplogicalH fuel G h).2 := by
  rw [is_graph_acyclic_toplogicalH]
  split
  next o h1 hq =>
    have he := topological_sortH_ext fuel G hn
    rw [hq] at he
    exact he

/-! ### The claims -/

/-- C1: for every graph G (a dictionary mapping nodes to sets of nodes, hence
well-formed), `is_graph_acylic_DFS G` returns the same boolean as
`is_graph_acyclic_toplogical G`. -/
theorem claim_C1 {α : Type} [DecidableEq α] (G : Graph α) (hWF : WF G) :
    is_graph_acylic_DFS G = is_graph_acyclic_toplogical G :=
  dfs_eq_toplogical hWF

theorem claim_C1_witness :
    WF gMerge ∧ is_graph_acylic_DFS gMerge = is_graph_acyclic_toplogical gMerge :=
  ⟨by decide, claim_C1 gMerge (by decide)⟩

/-- C2: for every acyclic graph G, `topological_sort G` returns a list that
contains each node of the derived node set exactly once, and only such nodes,
so its length equals the node set's cardinality. -/
theorem claim_C2 {α : Type} [DecidableEq α] (G : Graph α) (hWF : WF G) (hA : Acyclic G) :
    ∃ l, topological_sort G = some l ∧
      (∀ x ∈ edge_dict_to_node_set G, l.count x = 1) ∧
      (∀ x ∈ l, x ∈ edge_dict_to_node_set G) ∧
      l.length = (edge_dict_to_node_set G).length := by
  have hKI : KInv G (sortRun G (invert_edge_dict G) (kahnFuel G) (initState G)) :=
    kinv_run hWF _ (kinv_init G)
  refine ⟨(sortRun G (invert_edge_dict G) (kahnFuel G) (initState G)).ordering,
    topological_sort_eq_some hWF hA, ?_, hKI.ordSub, ?_⟩
  · intro x hx
    exact List.count_eq_one_of_mem hKI.ordNodup (kahn_complete hWF hA x hx)
  · have hset : (sortRun G (invert_edge_dict G) (kahnFuel G) (initState G)).ordering.toFinset =
        (edge_dict_to_node_set G).toFinset := by
      ext x
      simp only [List.mem_toFinset]
      exact ⟨fun h => hKI.ordSub x h, fun h => kahn_complete hWF hA x h⟩
    calc (sortRun G (invert_edge_dict G) (kahnFuel G) (initState G)).ordering.length
        = (sortRun G (invert_edge_dict G) (kahnFuel G) (initState G)).ordering.toFinset.card :=
          (List.toFinset_card_of_nodup hKI.ordNodup).symm
      _ = (edge_dict_to_node_set G).toFinset.card := by rw [hset]
      _ = (edge_dict_to_node_set G).length :=
          List.toFinset_card_of_nodup (edge_dict_to_node_set_nodup G)

theorem claim_C2_witness :
    ∃ l, topological_sort gMerge = some l ∧
      (∀ x ∈ edge_dict_to_node_set gMerge, l.count x = 1) ∧
      (∀ x ∈ l, x ∈ edge_dict_to_node_set gMerge) ∧
      l.length = (edge_dict_to_node_set gMerge).length :=
  claim_C2 gMerge (by decide) ((dfs_true_iff_acyclic gMerge).mp (by decide))

/-- C3: for every acyclic graph G and every edge (A depends on B) of G, the
index of B in the list returned by `topological_sort G` is strictly smaller
than the index of A. -/
theorem claim_C3 {α : Type} [DecidableEq α] (G : Graph α) (hWF : WF G) (hA : Acyclic G)
    (l : List α) (hl : topological_sort G = some l) (A B : α) (hAB : B ∈ lookupD G A) :
    posOf B l < posOf A l := by
  rw [topological_sort] at hl
  split at hl
  · have heq : (sortRun G (invert_edge_dict G) (kahnFuel G) (initState G)).ordering = l :=
      Option.some.inj hl
    subst heq
    have hKI := kinv_run hWF (kahnFuel G) (kinv_init G)
    have hA_ord : A ∈ (sortRun G (invert_edge_dict G) (kahnFuel G) (initState G)).ordering :=
      kahn_complete hWF hA A (mem_lookupD_key hAB)
    exact (kinv_edge_before hKI hA_ord hAB).2
  · exact Option.noConfusion hl

theorem claim_C3_witness : posOf 1 [2, 1, 0] < posOf 0 [2, 1, 0] :=
  claim_C3 gChain (by decide) ((dfs_true_iff_acyclic gChain).mp (by decide))
    [2, 1, 0] (by decide) 0 1 (by decide)

/-- C4: for every cyclic graph G (some node lies on a directed cycle, a
self-loop included), `topological_sort G` returns the cycle signal `none`,
never a list. -/
theorem claim_C4 {α : Type} [DecidableEq α] (G : Graph α) (hWF : WF G)
    (hcyc : ∃ m, Relation.TransGen (EdgeRel G) m m) : topological_sort G = none :=
  topological_sort_eq_none hWF hcyc

theorem claim_C4_witness : topological_sort gLoop = none :=
  claim_C4 gLoop (by decide)
    ⟨0, Relation.TransGen.single (by decide : (0 : Nat) ∈ lookupD gLoop 0)⟩

/-- C5: `topological_sort` on the empty graph returns the empty ordering,
not the cycle signal. -/
theorem claim_C5 : topological_sort ([] : Graph Nat) = some [] := by decide

/-- C6: for every edge (A depends on B) of G, `invert_edge_dict G` maps B to
a set containing A; a node with no incoming edges is absent as a key of the
inverted mapping, yet looking it up yields the empty set rather than a
missing-key failure. -/
theorem claim_C6 {α : Type} [DecidableEq α] (G : Graph α) :
    (∀ A B : α, B ∈ lookupD G A → A ∈ lookupD (invert_edge_dict G) B) ∧
    (∀ x : α, (∀ p ∈ G, x ∉ p.2) →
      x ∉ keys (invert_edge_dict G) ∧ lookupD (invert_edge_dict G) x = []) := by
  constructor
  · intro A B hB
    have hne : lookupD G A ≠ [] := by
      intro h
      rw [h] at hB
      exact List.not_mem_nil B hB
    exact mem_lookupD_invert.mpr ⟨(A, lookupD G A), lookupD_mem hne, rfl, hB⟩
  · intro x hx
    have hk : x ∉ keys (invert_edge_dict G) := by
      intro hkey
      obtain ⟨p, hp, hxp⟩ := mem_keys_invert.mp hkey
      exact hx p hp hxp
    exact ⟨hk, lookupD_eq_nil_of_not_key hk⟩

theorem claim_C6_witness :
    (0 : Nat) ∈ lookupD (invert_edge_dict gChain) 1 ∧
    (0 ∉ keys (invert_edge_dict gChain) ∧ lookupD (invert_edge_dict gChain) 0 = []) :=
  ⟨(claim_C6 gChain).1 0 1 (by decide), (claim_C6 gChain).2 0 (by decide)⟩

/-- C7: `edge_dict_to_node_set G` is exactly the set of identifiers occurring
as a key of G or inside one of its value sets — in particular a node that is
only a dependency target is included — and the empty graph yields the empty
set. -/
theorem claim_C7 {α : Type} [DecidableEq α] (G : Graph α) :
    (∀ x : α, x ∈ edge_dict_to_node_set G ↔ ∃ p ∈ G, x = p.1 ∨ x ∈ p.2) ∧
    edge_dict_to_node_set ([] : Graph α) = [] :=
  ⟨fun _ => mem_edge_dict_to_node_set, rfl⟩

/-- C9: both loops terminate on every finite graph, cyclic ones included:
the frontier loop empties the frontier within `kahnFuel G` iterations and is
unchanged by extra fuel, and the DFS helper's answer is stable once the fuel
reaches `dfsFuel G`, its recursion-depth bound. -/
theorem claim_C9 {α : Type} [DecidableEq α] (G : Graph α) (hWF : WF G) :
    (sortRun G (invert_edge_dict G) (kahnFuel G) (initState G)).frontier = [] ∧
    (∀ fuel, kahnFuel G ≤ fuel →
      sortRun G (invert_edge_dict G) fuel (initState G) =
        sortRun G (invert_edge_dict G) (kahnFuel G) (initState G)) ∧
    (∀ fuel s, dfsFuel G ≤ fuel → s ∈ edge_dict_to_node_set G →
      is_graph_acylic_helper G fuel [] s = is_graph_acylic_helper G (dfsFuel G) [] s) :=
  ⟨sortRun_frontier_empty hWF _ (kinv_init G) (le_refl _),
   fun _ hf => sortRun_fuel_stable hWF hf,
   fun _ s hf hs => helper_fuel_stable G hf hs⟩

theorem claim_C9_witness :
    (sortRun gCyc2 (invert_edge_dict gCyc2) (kahnFuel gCyc2) (initState gCyc2)).frontier = [] ∧
    sortRun gCyc2 (invert_edge_dict gCyc2) (kahnFuel gCyc2 + 5) (initState gCyc2) =
      sortRun gCyc2 (invert_edge_dict gCyc2) (kahnFuel gCyc2) (initState gCyc2) ∧
    is_graph_acylic_helper gCyc2 (dfsFuel gCyc2 + 3) [] 0 =
      is_graph_acylic_helper gCyc2 (dfsFuel gCyc2) [] 0 :=
  ⟨(claim_C9 gCyc2 (by decide)).1,
   (claim_C9 gCyc2 (by decide)).2.1 _ (Nat.le_add_right _ _),
   (claim_C9 gCyc2 (by decide)).2.2 _ 0 (Nat.le_add_right _ _) (by decide)⟩

/-- C10: the inverted mapping has y in its set for key x exactly when
(y depends on x) is an edge of G, and inverting twice preserves the edge
relation exactly. -/
theorem claim_C10 {α : Type} [DecidableEq α] (G : Graph α) (hWF : WF G) :
    (∀ x y : α, y ∈ lookupD (invert_edge_dict G) x ↔ x ∈ lookupD G y) ∧
    (∀ x y : α, y ∈ lookupD (invert_edge_dict (invert_edge_dict G)) x ↔ y ∈ lookupD G x) := by
  refine ⟨fun x y => invert_mem_iff hWF x y, fun x y => ?_⟩
  rw [invert_mem_iff (invert_WF G) x y, invert_mem_iff hWF y x]

theorem claim_C10_witness :
    ((1 : Nat) ∈ lookupD (invert_edge_dict gChain) 2 ↔ 2 ∈ lookupD gChain 1) ∧
    ((1 : Nat) ∈ lookupD (invert_edge_dict (invert_edge_dict gChain)) 0 ↔ 1 ∈ lookupD gChain 0) :=
  ⟨(claim_C10 gChain (by decide)).1 2 1, (claim_C10 gChain (by decide)).2 0 1⟩

/-- C8: calling `topological_sort`, `is_graph_acylic_DFS` or
`is_graph_acyclic_toplogical` leaves the caller-supplied mapping unchanged.
In the heap model of the set objects, no cell that existed before the call is
ever written — every mutation of the three functions targets an object the
call itself allocated — so after any of the three calls, with any fuel, the
caller's dictionary still has the same keys and each key still maps to the
same set contents. -/
theorem claim_C8 {α : Type} [DecidableEq α] (fuel : Nat) (G : GraphR α) (h : Heap α)
    (href : ∀ p ∈ G, p.2 < h.length) :
    viewR G (topological_sortH fuel G h).2 = viewR G h ∧
    viewR G (is_graph_acylic_DFS_H fuel G h).2 = viewR G h ∧
    viewR G (is_graph_acyclic_toplogicalH fuel G h).2 = viewR G h ∧
    (∀ r, r < h.length → heapGet (topological_sortH fuel G h).2 r = heapGet h r) ∧
    (∀ r, r < h.length → heapGet (is_graph_acylic_DFS_H fuel G h).2 r = heapGet h r) ∧
    (∀ r, r < h.length → heapGet (is_graph_acyclic_toplogicalH fuel G h).2 r = heapGet h r) := by
  have h1 := @topological_sortH_ext α _ h.length fuel G h (le_refl _)
  have h2 := @is_graph_acylic_DFS_H_ext α _ h.length fuel G h (le_refl _)
  have h3 := @is_graph_acyclic_toplogicalH_ext α _ h.length fuel G h (le_refl _)
  refine ⟨?_, ?_, ?_, h1.2, h2.2, h3.2⟩
  · rw [viewR, viewR]
    refine List.map_congr_left ?_
    intro p hp
    rw [h1.2 p.2 (href p hp)]
  · rw [viewR, viewR]
    refine List.map_congr_left ?_
    intro p hp
    rw [h2.2 p.2 (href p hp)]
  · rw [viewR, viewR]
    refine List.map_congr_left ?_
    intro p hp
    rw [h3.2 p.2 (href p hp)]

theorem claim_C8_witness :
    viewR gExR (topological_sortH 50 gExR hEx).2 = viewR gExR hEx ∧
    viewR gExR (is_graph_acylic_DFS_H 50 gExR hEx).2 = viewR gExR hEx ∧
    viewR gExR (is_graph_acyclic_toplogicalH 50 gExR hEx).2 = viewR gExR hEx ∧
    (∀ r, r < hEx.length → heapGet (topological_sortH 50 gExR hEx).2 r = heapGet hEx r) ∧
    (∀ r, r < hEx.length → heapGet (is_graph_acylic_DFS_H 50 gExR hEx).2 r = heapGet hEx r) ∧
    (∀ r, r < hEx.length →
      heapGet (is_graph_acyclic_toplogicalH 50 gExR hEx).2 r = heapGet hEx r) :=
  claim_C8 50 gExR hEx (by decide)

end DAGUtils
